import Mathlib

/-! cmd-doc: help-text parsing (`urfave`) and markdown rendering (`docgen`).

A shallow embedding of `src/urfave/urfave.go` and `src/docgen/docgen.go`.

Go strings are modelled as `List Char` (a string of valid UTF-8 seen as its sequence of
code points).  The three compiled regular expressions of `urfave.go` are modelled by
dedicated matchers, each documented with the pattern it stands for.
-/

namespace CmdDoc

/-- Go `string`, as the list of its code points. -/
abbrev Str := List Char

/-! ## Character classes -/

/-- The class `[\n\r]` of `linesRegex`. -/
def isLineTerm (c : Char) : Bool :=
  c.toNat == 10 || c.toNat == 13

/-- The Perl class `\s` of Go's `regexp` (RE2): exactly `[\t\n\f\r ]`. -/
def isSpaceRe (c : Char) : Bool :=
  c.toNat == 9 || c.toNat == 10 || c.toNat == 12 || c.toNat == 13 || c.toNat == 32

/-- Go's `unicode.IsSpace`, the white space removed by `strings.TrimSpace`:
`\t \n \v \f \r`, space, U+0085, U+00A0 and the code points of category `Z`. -/
def isSpace (c : Char) : Bool :=
  (9 ≤ c.toNat && c.toNat ≤ 13) || c.toNat == 32 || c.toNat == 0x85 || c.toNat == 0xA0 ||
  c.toNat == 0x1680 || (0x2000 ≤ c.toNat && c.toNat ≤ 0x200A) || c.toNat == 0x2028 ||
  c.toNat == 0x2029 || c.toNat == 0x202F || c.toNat == 0x205F || c.toNat == 0x3000

/-- The class `[A-Z]`. -/
def isUpperAZ (c : Char) : Bool :=
  65 ≤ c.toNat && c.toNat ≤ 90

/-- The class `[A-Za-z]`. -/
def isAlphaAZ (c : Char) : Bool :=
  (65 ≤ c.toNat && c.toNat ≤ 90) || (97 ≤ c.toNat && c.toNat ≤ 122)

/-- The class `[A-Z\s]` of `headerRegex`. -/
def isLabelChar (c : Char) : Bool :=
  isUpperAZ c || isSpaceRe c

/-- The class `[\s,]` that ends the token of `commandRegex`. -/
def isTokenEnd (c : Char) : Bool :=
  isSpaceRe c || c.toNat == 44

/-! ## Library string functions -/

/-- Splitting at every character of the class `p`: the pieces of `s` between consecutive
separator characters.  The result is never empty, and a separator at the very end yields
a final empty piece. -/
def splitBy (p : Char → Bool) : Str → List Str
  | [] => [[]]
  | c :: cs =>
    if p c then [] :: splitBy p cs
    else
      match splitBy p cs with
      | [] => [[c]]
      | l :: ls => (c :: l) :: ls

/-- `linesRegex.Split(s, -1)` with `linesRegex = [\n\r]` (`Split` of the empty string
is `[""]`; every match is one character long, so no piece is dropped). -/
def splitLines (s : Str) : List Str :=
  splitBy isLineTerm s

/-- `strings.TrimSpace`: drop leading and trailing Unicode white space. -/
def TrimSpace (s : Str) : Str :=
  (s.dropWhile isSpace).rdropWhile isSpace

/-- The first occurrence of the non-empty separator `sep` in `s`: the text before it and
the text after it (`strings.Index` followed by the two slices of `genSplit`). -/
def cutFirst (sep : Str) : Str → Option (Str × Str)
  | [] => none
  | c :: cs =>
    if sep.isPrefixOf (c :: cs) then some ([], (c :: cs).drop sep.length)
    else
      match cutFirst sep cs with
      | none => none
      | some (a, b) => some (c :: a, b)

/-- `strings.SplitN(s, sep, 2)` for a non-empty `sep`: `[s]` when `sep` does not occur,
otherwise the text before and the text after its first occurrence. -/
def SplitN2 (s sep : Str) : List Str :=
  match cutFirst sep s with
  | none => [s]
  | some (a, b) => [a, b]

/-- `strings.ToLower`, exact on ASCII (the only input it receives, a header label
matched by `[A-Z\s]*`). -/
def ToLower (s : Str) : Str :=
  s.map Char.toLower

/-- Go's `strings.isSeparator`, exact on ASCII: letters, digits and underscore are not
separators, every other ASCII character is; outside ASCII the white space is (letters
and digits outside ASCII are not modelled: `Title` only receives ASCII here). -/
def isSeparator (c : Char) : Bool :=
  if c.toNat < 128 then
    !(isAlphaAZ c || (48 ≤ c.toNat && c.toNat ≤ 57) || c.toNat == 95)
  else isSpace c

/-- The `strings.Map` closure of `strings.Title`, threaded over the string with the
previous character `prev`: a letter that follows a separator is upper-cased. -/
def titleFrom : Char → Str → Str
  | _, [] => []
  | prev, c :: cs =>
    (if isSeparator prev then Char.toUpper c else c) :: titleFrom c cs

/-- `strings.Title` (ASCII): `prev` starts as a space. -/
def Title (s : Str) : Str :=
  titleFrom ' ' s

/-! ## The regular expressions -/

/-- `headerRegex.FindStringSubmatch(line)` with
`headerRegex = ^([A-Z]+[A-Z\s]*):\s*$`, reduced to its capture group `sm[1]`
(`none` when there is no match, i.e. `len(sm) < 2`).

The group is the maximal run of `[A-Z\s]` at the start of the line (the colon that must
follow it is outside the class), it has to start with a character of `[A-Z]`, and the
colon has to be followed by `\s*` up to the end of the text. -/
def headerMatch (line : Str) : Option Str :=
  match line.takeWhile isLabelChar, line.dropWhile isLabelChar with
  | c :: label, colon :: ws =>
    if isUpperAZ c && colon.toNat == 58 && ws.all isSpaceRe then some (c :: label) else none
  | _, _ => none

/-- `commandRegex.FindStringSubmatch(line)` with
`commandRegex = ^\s+([A-Za-z][^\s]*?)[\s,]`, reduced to its capture group.

`\s+` has to take all the leading white space (a letter must follow), and the lazy
`[^\s]*?` stops at the first character of `[\s,]`, which must exist. -/
def commandMatch (line : Str) : Option Str :=
  match line.takeWhile isSpaceRe, line.dropWhile isSpaceRe with
  | _ :: _, c :: cs =>
    if isAlphaAZ c then
      match cs.dropWhile (fun x => !isTokenEnd x) with
      | [] => none
      | _ :: _ => some (c :: cs.takeWhile (fun x => !isTokenEnd x))
    else none
  | _, _ => none

/-! ## `urfave.Help` -/

/-- The contents of a non-nil Go `map[string]string`, as an association list with
unique keys; a new key is added at the end. -/
abbrev HelpMap := List (Str × Str)

/-- The type `Help` (`map[string]string`): `none` is the nil map. -/
abbrev Help := Option HelpMap

/-- The lookup `v, ok := m[k]`. -/
def mapGet (m : HelpMap) (k : Str) : Option Str :=
  match m with
  | [] => none
  | (k', v) :: t => if k' = k then some v else mapGet t k

/-- The assignment `m[k] = v`. -/
def mapSet (m : HelpMap) (k v : Str) : HelpMap :=
  match m with
  | [] => [(k, v)]
  | (k', v') :: t => if k' = k then (k, v) :: t else (k', v') :: mapSet t k v

/-- The key computed from the capture group of a header line:
`strings.Title(strings.ToLower(strings.TrimSpace(sm[1])))`. -/
def headerKey (sm1 : Str) : Str :=
  Title (ToLower (TrimSpace sm1))

/-- One iteration of the loop of `ParseHelp` on the state `(header, result)`. -/
def parseHelpStep (st : Str × HelpMap) (line : Str) : Str × HelpMap :=
  match headerMatch line with
  | some sm1 => (headerKey sm1, st.2)
  | none =>
    let result := match mapGet st.2 st.1 with
      | none => mapSet st.2 st.1 []
      | some _ => st.2
    (st.1, mapSet result st.1 ((mapGet result st.1).getD [] ++ line ++ ['\n']))

/-- The loop of `ParseHelp` over the lines, from `header = ""` and an empty map. -/
def parseHelpLoop (lines : List Str) : Str × HelpMap :=
  lines.foldl parseHelpStep ([], [])

/-- `ParseHelp`: never the nil map (`make(map[string]string)`). -/
def ParseHelp (help : Str) : Help :=
  some (parseHelpLoop (splitLines help)).2

/-! ## The section parsers -/

/-- `ParseCommands`: the captured token of every matching line, except `help`. -/
def ParseCommands (commandsHelp : Str) : List Str :=
  (splitLines commandsHelp).foldl
    (fun result line =>
      match commandMatch line with
      | some sm1 => if sm1 ≠ ['h', 'e', 'l', 'p'] then result ++ [sm1] else result
      | none => result)
    []

/-- The loop of `ParseName` over the remaining lines, with the current values of the
named results `name` and `usage`.  The result is `none` exactly when the index
expression `split[0]` is out of range (a run-time panic in Go). -/
def parseNameLoop (name usage : Str) : List Str → Option (Str × Str)
  | [] => some (name, usage)
  | line :: rest =>
    match SplitN2 line [' ', '-', ' '] with
    | [] => none
    | s0 :: tl =>
      if TrimSpace s0 = [] then parseNameLoop [] usage rest
      else
        match tl with
        | s1 :: _ => some (TrimSpace s0, TrimSpace s1)
        | [] => some (TrimSpace s0, usage)

/-- `ParseName`: `some (name, usage)`, or `none` for a panic. -/
def ParseName (nameHelp : Str) : Option (Str × Str) :=
  parseNameLoop [] [] (splitLines nameHelp)

/-- `ParseVersion`: the first line that is not blank, trimmed. -/
def ParseVersion (versionHelp : Str) : Str :=
  ((splitLines versionHelp).map TrimSpace).find? (fun line => line ≠ []) |>.getD []

/-- `ParseDescription`. -/
def ParseDescription (descriptionHelp : Str) : Str :=
  let result := (splitLines descriptionHelp).foldl
    (fun result line => result ++ TrimSpace line ++ ['\n']) []
  let result := TrimSpace result
  if result = [] then [] else result ++ ['\n']

/-! ## The accessors of `Help`

Each returns `none` only where the Go code would panic. -/

/-- `Help.Version`. -/
def Help.Version (h : Help) : Option Str :=
  match h with
  | none => some []
  | some m =>
    match mapGet m ['V', 'e', 'r', 's', 'i', 'o', 'n'] with
    | none => some []
    | some help => some (ParseVersion help)

/-- `Help.Name`. -/
def Help.Name (h : Help) : Option Str :=
  match h with
  | none => some []
  | some m =>
    match mapGet m ['N', 'a', 'm', 'e'] with
    | none => some []
    | some help => (ParseName help).map Prod.fst

/-- `Help.Usage`. -/
def Help.Usage (h : Help) : Option Str :=
  match h with
  | none => some []
  | some m =>
    match mapGet m ['N', 'a', 'm', 'e'] with
    | none => some []
    | some help => (ParseName help).map Prod.snd

/-- `Help.Commands` (the nil slice is the empty list). -/
def Help.Commands (h : Help) : Option (List Str) :=
  match h with
  | none => some []
  | some m =>
    match mapGet m ['C', 'o', 'm', 'm', 'a', 'n', 'd', 's'] with
    | none => some []
    | some help => some (ParseCommands help)

/-- `Help.Description`: the raw section text. -/
def Help.Description (h : Help) : Option Str :=
  match h with
  | none => some []
  | some m =>
    match mapGet m ['D', 'e', 's', 'c', 'r', 'i', 'p', 't', 'i', 'o', 'n'] with
    | none => some []
    | some help => some help

/-! ## `docgen` -/

/-- A value of the interface `docgen.Command`, as the results of its five methods. -/
inductive Command where
  | mk (name info description help : Str) (commands : List Command) : Command

/-- `Command.Name`. -/
def Command.Name : Command → Str
  | .mk name _ _ _ _ => name

/-- `Command.Info`. -/
def Command.Info : Command → Str
  | .mk _ info _ _ _ => info

/-- `Command.Description`. -/
def Command.Description : Command → Str
  | .mk _ _ description _ _ => description

/-- `Command.Help`. -/
def Command.Help : Command → Str
  | .mk _ _ _ help _ => help

/-- `Command.Commands`. -/
def Command.Commands : Command → List Command
  | .mk _ _ _ _ commands => commands

/-- `strings.TrimSuffix(s, "\n")`. -/
def trimSuffixNewline (s : Str) : Str :=
  match s.getLast? with
  | some c => if c = '\n' then s.dropLast else s
  | none => s

/-- `strings.Split(s, "\n")`. -/
def splitNewline (s : Str) : List Str :=
  splitBy (fun c => c == '\n') s

/-- The name shown in the heading: `COMMAND` when the name is empty. -/
def headingName (name : Str) : Str :=
  if name = [] then ['C', 'O', 'M', 'M', 'A', 'N', 'D'] else name

/-- The block-quoted info of `generate`, with the newline added when it is not empty. -/
def quotedInfo (info : Str) : Str :=
  let lines := splitNewline (trimSuffixNewline info)
  let info := if lines.length > 0 then
      lines.foldl (fun acc line => acc ++ ['>', ' '] ++ line ++ ['\n']) []
    else info
  if info ≠ [] then info ++ ['\n'] else info

/-- The description of `generate`, with the newline added when it is not empty. -/
def paddedDescription (description : Str) : Str :=
  if description ≠ [] then description ++ ['\n'] else description

/-- The initial value of `body` in `generate`: the section of the node itself. -/
def sectionBody (name info description help : Str) (depth : Nat) : Str :=
  List.replicate (depth + 1) '#' ++ [' '] ++ headingName name ++ ['\n'] ++
    ['\n'] ++
    quotedInfo info ++
    paddedDescription description ++
    ['`', '`', '`', '\n'] ++
    help ++ ['\n'] ++
    ['`', '`', '`', '\n']

mutual
/-- The closure `generate` of `GenerateMarkdown`. -/
def generate : Command → Nat → Str
  | .mk name info description help commands, depth =>
    sectionBody name info description help depth ++ generateSubs commands depth
/-- The loop of `generate` over the sub-commands: each adds a newline and its own
rendering one level deeper. -/
def generateSubs : List Command → Nat → Str
  | [], _ => []
  | subCommand :: rest, depth =>
    ['\n'] ++ generate subCommand (depth + 1) ++ generateSubs rest depth
end

/-- `GenerateMarkdown`. -/
def GenerateMarkdown (command : Command) : Str :=
  generate command 0

/-- The node reached from `c` by following the child indices of `path`. -/
def Command.sub : Command → List Nat → Option Command
  | c, [] => some c
  | .mk _ _ _ _ commands, i :: path =>
    match commands.get? i with
    | some child => Command.sub child path
    | none => none

/-! ## The tree builder of `urfave` -/

/-- The external program behind `exec.Command(args[0], args[1:]...).CombinedOutput()`:
for an argument list, the combined output and the error message, if the run failed.  The
program is taken to answer the same arguments the same way every time. -/
abbrev Invoker := List Str → Str × Option Str

/-- `strings.Join(args, ", ")`. -/
def joinArgs : List Str → Str
  | [] => []
  | [a] => a
  | a :: b :: rest => a ++ [',', ' '] ++ joinArgs (b :: rest)

/-- `docgen.GetCommandOutput`: the output and the error (`none` for `nil`). -/
def GetCommandOutput (exec : Invoker) (args : List Str) : Str × Option Str :=
  if args.length < 1 then
    ([], some "docgen.GetCommandOutput requires at least one arg".toList)
  else
    match exec args with
    | (b, some err) =>
      (b, some ("docgen.GetCommandOutput exec error for args (".toList ++ joinArgs args ++
        "): ".toList ++ err))
    | (b, none) => (b, none)

/-- The struct `commandHelp`. -/
inductive commandHelp where
  | mk (base : List Str)
      (name version usage buildDate buildUser buildVersion description help : Str)
      (commands : List commandHelp) : commandHelp

/-- The field `base`. -/
def commandHelp.base : commandHelp → List Str
  | .mk base _ _ _ _ _ _ _ _ _ => base

/-- The field `commands`. -/
def commandHelp.commands : commandHelp → List commandHelp
  | .mk _ _ _ _ _ _ _ _ _ commands => commands

/-- `commandHelp.Name`. -/
def commandHelp.Name : commandHelp → Str
  | .mk _ name _ _ _ _ _ _ _ _ => name

/-- `commandHelp.Info`. -/
def commandHelp.Info : commandHelp → Str
  | .mk _ name version usage buildDate buildUser buildVersion _ _ _ =>
    let result : Str := []
    let result := if TrimSpace name ≠ [] then
      result ++ "name: ".toList ++ TrimSpace name ++ ['\n'] else result
    let result := if TrimSpace version ≠ [] then
      result ++ "version: ".toList ++ TrimSpace version ++ ['\n'] else result
    let result := if TrimSpace buildVersion ≠ [] then
      result ++ "build_version: ".toList ++ TrimSpace buildVersion ++ ['\n'] else result
    let result := if TrimSpace buildDate ≠ [] then
      result ++ "build_date: ".toList ++ TrimSpace buildDate ++ ['\n'] else result
    let result := if TrimSpace buildUser ≠ [] then
      result ++ "build_user: ".toList ++ TrimSpace buildUser ++ ['\n'] else result
    if TrimSpace usage ≠ [] then
      if result = [] then TrimSpace usage ++ ['\n']
      else TrimSpace usage ++ ['\n', '\n'] ++ result
    else result

/-- `commandHelp.Description`. -/
def commandHelp.Description : commandHelp → Str
  | .mk _ _ _ _ _ _ _ description _ _ => description

/-- `commandHelp.Help`. -/
def commandHelp.Help : commandHelp → Str
  | .mk _ _ _ _ _ _ _ _ help _ => help

mutual
/-- A `commandHelp` seen through the interface `docgen.Command`. -/
def commandHelp.toCommand : commandHelp → Command
  | .mk base name version usage buildDate buildUser buildVersion description help commands =>
    .mk name
      (commandHelp.Info
        (.mk base name version usage buildDate buildUser buildVersion description help []))
      description help (commandHelp.toCommands commands)
/-- The slice `commands` seen through the interface. -/
def commandHelp.toCommands : List commandHelp → List Command
  | [] => []
  | c :: cs => commandHelp.toCommand c :: commandHelp.toCommands cs
end

/-- The index expression `help[key]` on a `Help`, the empty string for a missing key. -/
def Help.index (h : Help) (key : Str) : Str :=
  match h with
  | none => []
  | some m => (mapGet m key).getD []

/-- The loop of `commandHelp.generate` over the sub-command names: `gen` builds the
command of one name, `commands` is the slice built so far.  The first failure ends the
loop. -/
def generateEach (gen : Str → Option (Except Str commandHelp)) :
    List Str → List commandHelp → Option (Except Str (List commandHelp))
  | [], commands => some (.ok commands)
  | subCommand :: rest, commands =>
    match gen subCommand with
    | none => none
    | some (.error err) => some (.error err)
    | some (.ok command) => generateEach gen rest (commands ++ [command])

/-- `commandHelp.generate` for the receiver with the given `base`, with at most `fuel`
nested calls.  The result is `none` when there is no result (the fuel has run out, or a
panic), `some (.error err)` for a returned error, `some (.ok c)` for `nil` with the
receiver filled in as `c`. -/
def commandHelp.generate (exec : Invoker) : Nat → List Str → Option (Except Str commandHelp)
  | 0, _ => none
  | fuel + 1, base =>
    match GetCommandOutput exec (base ++ ["--help".toList]) with
    | (_, some err) => some (.error err)
    | (helpStr, none) =>
      let help := ParseHelp helpStr
      match Help.Name help, Help.Version help, Help.Usage help, Help.Description help,
        Help.Commands help with
      | some name, some version, some usage, some description, some subCommands =>
        let buildVersion := TrimSpace (Help.index help "Build Version".toList)
        let buildDate := TrimSpace (Help.index help "Build Date".toList)
        let buildUser := TrimSpace (Help.index help "Build User".toList)
        match generateEach (fun subCommand => commandHelp.generate exec fuel
            (base ++ [subCommand])) subCommands [] with
        | none => none
        | some (.error err) => some (.error err)
        | some (.ok commands) =>
          some (.ok (.mk base name version usage buildDate buildUser buildVersion
            (ParseDescription description) helpStr commands))
      | _, _, _, _, _ => none

/-- `NewCommand`, with at most `fuel` nested calls of `generate`: the command or the
error (`none` when there is no result). -/
def NewCommand (exec : Invoker) (fuel : Nat) (command : Str) (args : List Str) :
    Option (Except Str commandHelp) :=
  match commandHelp.generate exec fuel (command :: args) with
  | none => none
  | some (.error err) => some (.error ("urfave.NewCommand generate error: ".toList ++ err))
  | some (.ok c) => some (.ok c)

/-- An invoker for the end-to-end scenario: the program `app` with the sub-command
`run`; every other invocation fails. -/
def appInvoker : Invoker := fun args =>
  if args = ["app".toList, "--help".toList] then
    ("NAME:\n   app - demo\n\nCOMMANDS:\n   run\t\truns it\n   help\t\tshow help\n".toList,
      none)
  else if args = ["app".toList, "run".toList, "--help".toList] then
    ("NAME:\n   run - executes\n".toList, none)
  else ([], some "exit status 1".toList)

/-- An invoker for a failure below the root: `app` lists the sub-commands `run` and
`stop`, `app run --help` succeeds and `app stop --help` fails. -/
def stopInvoker : Invoker := fun args =>
  if args = ["app".toList, "--help".toList] then
    ("COMMANDS:\n   run   runs it\n   stop  stops it\n".toList, none)
  else if args = ["app".toList, "run".toList, "--help".toList] then
    ("NAME:\n   run - executes\n".toList, none)
  else ("no help".toList, some "exit status 3".toList)

/-- An invoker all of whose invocations succeed: a program whose help lists the
sub-command `run` twice, and `help`, and whose sub-commands have no sub-command. -/
def twiceInvoker : Invoker := fun args =>
  if args.length ≤ 2 then
    ("COMMANDS:\n   run   runs it\n   run   runs it again\n   help  shows help\n".toList, none)
  else ("NAME:\n   run - executes\n".toList, none)

/-! ## Auxiliary notions used in the statements -/

/-- The text made of the given lines, each followed by a newline. -/
def catLines (ls : List Str) : Str :=
  (ls.map (fun l => l ++ ['\n'])).flatten

/-- The lines stored under the key `k` by the loop of `ParseHelp` started with the active
header `cur`: the lines that are no header and whose closest preceding header has the
key `k`. -/
def linesUnder (k : Str) : Str → List Str → List Str
  | _, [] => []
  | cur, l :: ls =>
    match headerMatch l with
    | some sm1 => linesUnder k (headerKey sm1) ls
    | none => if cur = k then l :: linesUnder k cur ls else linesUnder k cur ls

/-- The active header after the loop of `ParseHelp` has run over `lines` from `cur`. -/
def activeHeader (cur : Str) (lines : List Str) : Str :=
  lines.foldl (fun h l => match headerMatch l with
    | some sm1 => headerKey sm1
    | none => h) cur

/-- The section keys of the header lines among `lines`, in order. -/
def headerKeys (lines : List Str) : List Str :=
  lines.filterMap (fun l => (headerMatch l).map headerKey)

/-- The list without the repetitions of an earlier element. -/
def firstOccurrences : List Str → List Str
  | [] => []
  | k :: ks => k :: (firstOccurrences ks).filter (fun x => x ≠ k)

/-- The section keys of a text in the order in which their headers are first
encountered, the empty key of the preamble first. -/
def sectionOrder (text : Str) : List Str :=
  firstOccurrences ([] :: headerKeys (splitLines text))

/-- The section bodies of `h` under the keys `order`, concatenated in that order (a key
without a section contributes nothing). -/
def concatSections (h : Help) (order : List Str) : Str :=
  match h with
  | none => []
  | some m => (order.map (fun k => (mapGet m k).getD [])).flatten

/-- The text without its header lines: a line for which `headerRegex` matches is dropped
together with the line terminator that ends it; everything else is kept as it is.
`cur` is the part of the current line already read. -/
def removeHeaderLinesFrom : Str → Str → Str
  | cur, [] => if (headerMatch cur).isSome then [] else cur
  | cur, c :: cs =>
    if isLineTerm c then
      (if (headerMatch cur).isSome then [] else cur ++ [c]) ++ removeHeaderLinesFrom [] cs
    else removeHeaderLinesFrom (cur ++ [c]) cs

/-- The original text with its header lines removed. -/
def removeHeaderLines (text : Str) : Str :=
  removeHeaderLinesFrom [] text

/-- A line of a `Commands` section in its four parts: the leading white space, the
token, the character that ends the token, and the remaining text. -/
structure CommandLine where
  /-- The leading white space. -/
  indent : Str
  /-- The command name. -/
  token : Str
  /-- The character after the token. -/
  stop : Char
  /-- The text after that character. -/
  rest : Str

/-- The line as text. -/
def CommandLine.text (l : CommandLine) : Str :=
  l.indent ++ l.token ++ l.stop :: l.rest

/-- A token that starts with a letter and contains neither white space nor a comma. -/
def isCommandToken : Str → Bool
  | [] => false
  | c :: cs => isAlphaAZ c && cs.all (fun x => !isTokenEnd x)

/-- The line is made of non-empty leading white space, a token that starts with a letter
and contains no white space or comma, and a white space character or a comma. -/
def CommandLine.wellFormed (l : CommandLine) : Bool :=
  !l.indent.isEmpty && l.indent.all isSpaceRe && isCommandToken l.token && isTokenEnd l.stop

/-- The lines of a description block each trimmed of surrounding white space, without
the leading and the trailing blank lines. -/
def descriptionLines (s : Str) : List Str :=
  (((splitLines s).map TrimSpace).dropWhile List.isEmpty).rdropWhile List.isEmpty

/-- The sub-command names that `generate` reads from a help text: those that
`ParseCommands` finds in its `Commands` section, none when there is no such section. -/
def subCommandNames (helpStr : Str) : List Str :=
  (Help.Commands (ParseHelp helpStr)).getD []

/-- The receiver as `generate` fills it in from the captured help text `helpStr`, with
the sub-commands `commands`. -/
def filledIn (base : List Str) (helpStr : Str) (commands : List commandHelp) : commandHelp :=
  .mk base ((Help.Name (ParseHelp helpStr)).getD []) ((Help.Version (ParseHelp helpStr)).getD [])
    ((Help.Usage (ParseHelp helpStr)).getD [])
    (TrimSpace (Help.index (ParseHelp helpStr) "Build Date".toList))
    (TrimSpace (Help.index (ParseHelp helpStr) "Build User".toList))
    (TrimSpace (Help.index (ParseHelp helpStr) "Build Version".toList))
    (ParseDescription ((Help.Description (ParseHelp helpStr)).getD [])) helpStr commands

/-- The node reached from `c` by following the child indices of `path`. -/
def commandHelp.sub : commandHelp → List Nat → Option commandHelp
  | c, [] => some c
  | .mk _ _ _ _ _ _ _ _ _ commands, i :: path =>
    match commands.get? i with
    | some child => commandHelp.sub child path
    | none => none

/-- The paths whose invocation is reached while `generate` builds the tree of `base` with
the given fuel: `base` itself and, when its invocation succeeds, whatever is reached for
a sub-command name all of whose earlier siblings have been built. -/
inductive Reached (exec : Invoker) : Nat → List Str → List Str → Prop
  | here (fuel : Nat) (base : List Str) : Reached exec (fuel + 1) base base
  | child (fuel : Nat) (base : List Str) (helpStr : Str) (before : List Str) (name : Str)
      (later : List Str) (p : List Str)
      (hexec : exec (base ++ ["--help".toList]) = (helpStr, none))
      (hnames : subCommandNames helpStr = before ++ name :: later)
      (hbefore : ∀ x ∈ before, ∃ c, commandHelp.generate exec fuel (base ++ [x]) = some (.ok c))
      (hp : Reached exec fuel (base ++ [name]) p) : Reached exec (fuel + 1) base p

/-- The part of a line before its first ` - `, the whole line when there is none. -/
def leftOfSeparator (line : Str) : Str :=
  match cutFirst [' ', '-', ' '] line with
  | some (a, _) => a
  | none => line

/-- The part of a line after its first ` - `, if there is one. -/
def rightOfSeparator (line : Str) : Option Str :=
  match cutFirst [' ', '-', ' '] line with
  | some (_, b) => some b
  | none => none

/-- The words joined by single spaces. -/
def joinWords : List Str → Str
  | [] => []
  | [w] => w
  | w :: w' :: ws => w ++ ' ' :: joinWords (w' :: ws)

/-- The word in lower case with its first letter capitalised. -/
def capitalizeWord (w : Str) : Str :=
  match ToLower w with
  | [] => []
  | c :: cs => c.toUpper :: cs

/-! ## Lemmas: splitting -/

theorem splitBy_ne_nil (p : Char → Bool) (s : Str) : splitBy p s ≠ [] := by
  induction s with
  | nil => simp [splitBy]
  | cons c cs ih =>
    unfold splitBy
    split
    · simp
    · split <;> simp

theorem splitBy_no_sep (p : Char → Bool) (s : Str) (h : ∀ c ∈ s, p c = false) :
    splitBy p s = [s] := by
  induction s with
  | nil => rfl
  | cons c cs ih =>
    have hc : p c = false := h c (by simp)
    have ih2 := ih (fun x hx => h x (by simp [hx]))
    simp [splitBy, hc, ih2]

theorem splitBy_append_sep (p : Char → Bool) (l : Str) (sep : Char) (rest : Str)
    (h : ∀ c ∈ l, p c = false) (hsep : p sep = true) :
    splitBy p (l ++ sep :: rest) = l :: splitBy p rest := by
  induction l with
  | nil => simp [splitBy, hsep]
  | cons c cs ih =>
    have hc : p c = false := h c (by simp)
    have ih2 := ih (fun x hx => h x (by simp [hx]))
    simp [splitBy, hc, ih2]

theorem mem_splitBy_no_sep (p : Char → Bool) (s : Str) :
    ∀ l ∈ splitBy p s, ∀ c ∈ l, p c = false := by
  induction s with
  | nil => simp [splitBy]
  | cons c cs ih =>
    unfold splitBy
    by_cases hc : p c = true
    · simp only [hc, if_true]
      intro l hl
      rcases List.mem_cons.1 hl with h | h
      · subst h; simp
      · exact ih l h
    · simp only [hc]
      cases hs : splitBy p cs with
      | nil => exact absurd hs (splitBy_ne_nil p cs)
      | cons l0 ls =>
        rw [hs] at ih
        intro l hl
        simp only [Bool.false_eq_true, if_false, List.mem_cons] at hl
        rcases hl with h | h
        · subst h
          intro x hx
          rcases List.mem_cons.1 hx with hx | hx
          · subst hx; simpa using hc
          · exact ih l0 (by simp) x hx
        · exact ih l (by simp [h])

/-! ## Lemmas: the map -/

theorem mapGet_mapSet (m : HelpMap) (k v k' : Str) :
    mapGet (mapSet m k v) k' = if k = k' then some v else mapGet m k' := by
  induction m with
  | nil => simp [mapSet, mapGet]
  | cons e t ih =>
    obtain ⟨a, b⟩ := e
    by_cases hak : a = k
    · subst hak
      by_cases hk : a = k' <;> simp [mapSet, mapGet, hk]
    · by_cases hk : k = k'
      · subst hk
        simp [mapSet, mapGet, hak, ih]
      · by_cases hak' : a = k'
        · subst hak'
          simp [mapSet, mapGet, hak, hk]
        · simp [mapSet, mapGet, hak, hak', hk, ih]

theorem parseHelpStep_header (st : Str × HelpMap) (line sm1 : Str)
    (h : headerMatch line = some sm1) : parseHelpStep st line = (headerKey sm1, st.2) := by
  simp [parseHelpStep, h]

theorem parseHelpStep_line_fst (st : Str × HelpMap) (line : Str)
    (h : headerMatch line = none) : (parseHelpStep st line).1 = st.1 := by
  simp [parseHelpStep, h]

theorem parseHelpStep_line_get (st : Str × HelpMap) (line : Str)
    (h : headerMatch line = none) (k : Str) :
    mapGet (parseHelpStep st line).2 k =
      if st.1 = k then some ((mapGet st.2 st.1).getD [] ++ line ++ ['\n'])
      else mapGet st.2 k := by
  simp only [parseHelpStep, h]
  cases hg : mapGet st.2 st.1 with
  | none =>
    simp only [mapGet_mapSet]
    by_cases hk : st.1 = k <;> simp [hk]
  | some v =>
    simp only [mapGet_mapSet, hg]

theorem catLines_nil : catLines [] = [] := rfl

theorem catLines_cons (l : Str) (ls : List Str) :
    catLines (l :: ls) = l ++ ['\n'] ++ catLines ls := by
  simp [catLines]

theorem catLines_append (a b : List Str) : catLines (a ++ b) = catLines a ++ catLines b := by
  simp [catLines]

theorem catLines_eq_nil (ls : List Str) : catLines ls = [] ↔ ls = [] := by
  cases ls with
  | nil => simp [catLines]
  | cons l t => simp [catLines]

/-- The value stored under every key by the loop of `ParseHelp`. -/
theorem foldl_parseHelpStep_get (lines : List Str) (cur : Str) (m : HelpMap) (k : Str) :
    mapGet (lines.foldl parseHelpStep (cur, m)).2 k =
      if linesUnder k cur lines = [] then mapGet m k
      else some ((mapGet m k).getD [] ++ catLines (linesUnder k cur lines)) := by
  induction lines generalizing cur m with
  | nil => simp [linesUnder]
  | cons l ls ih =>
    simp only [List.foldl_cons]
    cases hl : headerMatch l with
    | some sm1 =>
      rw [parseHelpStep_header _ _ _ hl, ih]
      simp [linesUnder, hl]
    | none =>
      have h1 := parseHelpStep_line_fst (cur, m) l hl
      have h2 := parseHelpStep_line_get (cur, m) l hl k
      rw [show parseHelpStep (cur, m) l
        = ((parseHelpStep (cur, m) l).1, (parseHelpStep (cur, m) l).2) from rfl, ih, h1, h2]
      simp only [linesUnder, hl]
      by_cases hk : cur = k
      · subst hk
        simp only [if_true]
        by_cases he : linesUnder cur cur ls = []
        · simp [he, catLines]
        · simp [he, catLines_cons]
      · simp [hk]

/-! ## Lemmas: characters and header labels -/

theorem upperAZ_cases (P : Char → Prop) (h : ∀ n, 65 ≤ n → n ≤ 90 → P (Char.ofNat n))
    (c : Char) (hc : isUpperAZ c = true) : P c := by
  rw [← Char.ofNat_toNat c]
  simp only [isUpperAZ, Bool.and_eq_true, decide_eq_true_eq] at hc
  exact h _ hc.1 hc.2

theorem upperAZ_not_space (c : Char) (hc : isUpperAZ c = true) : isSpace c = false := by
  revert c
  apply upperAZ_cases
  intro n h1 h2
  interval_cases n <;> decide

theorem upperAZ_label (c : Char) (hc : isUpperAZ c = true) : isLabelChar c = true := by
  simp [isLabelChar, hc]

theorem upperAZ_toLower_toUpper (c : Char) (hc : isUpperAZ c = true) :
    c.toLower.toUpper = c := by
  revert c
  apply upperAZ_cases
  intro n h1 h2
  interval_cases n <;> decide

theorem upperAZ_toLower_not_sep (c : Char) (hc : isUpperAZ c = true) :
    isSeparator c.toLower = false := by
  revert c
  apply upperAZ_cases
  intro n h1 h2
  interval_cases n <;> decide

theorem titleFrom_word (cs : Str) (prev : Char) (hprev : isSeparator prev = false)
    (hcs : ∀ c ∈ cs, isUpperAZ c = true) :
    titleFrom prev (cs.map Char.toLower) = cs.map Char.toLower := by
  induction cs generalizing prev with
  | nil => rfl
  | cons c cs ih =>
    have hc := hcs c (by simp)
    simp only [List.map_cons, titleFrom, hprev, Bool.false_eq_true, if_false]
    rw [ih _ (upperAZ_toLower_not_sep c hc) (fun x hx => hcs x (by simp [hx]))]

theorem titleFrom_word_space (cs : Str) (prev : Char) (rest : Str)
    (hprev : isSeparator prev = false) (hcs : ∀ c ∈ cs, isUpperAZ c = true) :
    titleFrom prev (cs.map Char.toLower ++ ' ' :: rest)
      = cs.map Char.toLower ++ ' ' :: titleFrom ' ' rest := by
  induction cs generalizing prev with
  | nil => simp [titleFrom, hprev]
  | cons c cs ih =>
    have hc := hcs c (by simp)
    simp only [List.map_cons, List.cons_append, titleFrom, hprev, Bool.false_eq_true, if_false,
      List.append_eq]
    rw [ih _ (upperAZ_toLower_not_sep c hc) (fun x hx => hcs x (by simp [hx]))]

theorem capitalizeWord_upper (c : Char) (cs : Str) (hc : isUpperAZ c = true) :
    capitalizeWord (c :: cs) = c :: cs.map Char.toLower := by
  simp [capitalizeWord, ToLower, upperAZ_toLower_toUpper c hc]

theorem Title_ToLower_joinWords (words : List Str)
    (hupper : ∀ w ∈ words, w ≠ [] ∧ ∀ c ∈ w, isUpperAZ c = true) :
    Title (ToLower (joinWords words)) = joinWords (words.map capitalizeWord) := by
  unfold Title
  induction words with
  | nil => rfl
  | cons w ws ih =>
    obtain ⟨hne, hw⟩ := hupper w (by simp)
    cases w with
    | nil => exact absurd rfl hne
    | cons c cs =>
      have hc := hw c (by simp)
      have hcs : ∀ x ∈ cs, isUpperAZ x = true := fun x hx => hw x (by simp [hx])
      have hsp : isSeparator ' ' = true := by decide
      cases ws with
      | nil =>
        simp only [joinWords, ToLower, List.map_cons, titleFrom, hsp, if_true]
        rw [titleFrom_word cs _ (upperAZ_toLower_not_sep c hc) hcs,
          upperAZ_toLower_toUpper c hc, capitalizeWord_upper c cs hc]
      | cons w' ws' =>
        have ih2 := ih (fun x hx => hupper x (by simp [hx]))
        simp only [joinWords, ToLower, List.map_cons, List.map_append, List.cons_append,
          titleFrom, hsp, if_true, List.append_eq] at ih2 ⊢
        rw [show Char.toLower ' ' = ' ' from by decide,
          titleFrom_word_space cs _ _ (upperAZ_toLower_not_sep c hc) hcs,
          upperAZ_toLower_toUpper c hc, capitalizeWord_upper c cs hc]
        rw [ih2]
        simp

theorem joinWords_label (words : List Str)
    (hupper : ∀ w ∈ words, w ≠ [] ∧ ∀ c ∈ w, isUpperAZ c = true) :
    ∀ c ∈ joinWords words, isLabelChar c = true := by
  induction words with
  | nil => simp [joinWords]
  | cons w ws ih =>
    have hw := (hupper w (by simp)).2
    have ih2 := ih (fun x hx => hupper x (by simp [hx]))
    cases ws with
    | nil =>
      intro c hc
      exact upperAZ_label c (hw c (by simpa [joinWords] using hc))
    | cons w' ws' =>
      intro c hc
      simp only [joinWords, List.mem_append, List.mem_cons] at hc
      rcases hc with hc | hc | hc
      · exact upperAZ_label c (hw c hc)
      · subst hc; decide
      · exact ih2 c hc

theorem joinWords_head (words : List Str) (hne : words ≠ [])
    (hupper : ∀ w ∈ words, w ≠ [] ∧ ∀ c ∈ w, isUpperAZ c = true) :
    ∃ c cs, joinWords words = c :: cs ∧ isUpperAZ c = true := by
  cases words with
  | nil => exact absurd rfl hne
  | cons w ws =>
    obtain ⟨hwne, hw⟩ := hupper w (by simp)
    cases w with
    | nil => exact absurd rfl hwne
    | cons c cs =>
      cases ws with
      | nil => exact ⟨c, cs, rfl, hw c (by simp)⟩
      | cons w' ws' => exact ⟨c, _, rfl, hw c (by simp)⟩

theorem joinWords_getLast (words : List Str) (hne : words ≠ [])
    (hupper : ∀ w ∈ words, w ≠ [] ∧ ∀ c ∈ w, isUpperAZ c = true) :
    ∃ c, (joinWords words).getLast? = some c ∧ isUpperAZ c = true := by
  induction words with
  | nil => exact absurd rfl hne
  | cons w ws ih =>
    obtain ⟨hwne, hw⟩ := hupper w (by simp)
    cases ws with
    | nil =>
      refine ⟨w.getLast hwne, ?_, hw _ (List.getLast_mem hwne)⟩
      simp [joinWords, List.getLast?_eq_getLast _ hwne]
    | cons w' ws' =>
      obtain ⟨c, h1, h2⟩ := ih (by simp) (fun x hx => hupper x (by simp [hx]))
      refine ⟨c, ?_, h2⟩
      have hne2 : joinWords (w' :: ws') ≠ [] := by
        intro h; rw [h] at h1; simp at h1
      simp only [joinWords]
      rw [List.getLast?_append_of_ne_nil _ (by simp)]
      cases hj : joinWords (w' :: ws') with
      | nil => exact absurd hj hne2
      | cons x xs =>
        rw [hj] at h1
        rw [List.getLast?_cons_cons]
        exact h1

theorem TrimSpace_of_ends (c : Char) (cs : Str) (h1 : isSpace c = false)
    (h2 : ∀ x, (c :: cs).getLast? = some x → isSpace x = false) :
    TrimSpace (c :: cs) = c :: cs := by
  unfold TrimSpace
  rw [List.dropWhile_cons_of_neg (by simp [h1])]
  rw [List.rdropWhile_eq_self_iff]
  intro hl
  have := h2 _ (List.getLast?_eq_getLast _ hl)
  simp [this]

theorem headerKey_joinWords (words : List Str) (hne : words ≠ [])
    (hupper : ∀ w ∈ words, w ≠ [] ∧ ∀ c ∈ w, isUpperAZ c = true) :
    headerKey (joinWords words) = joinWords (words.map capitalizeWord) := by
  obtain ⟨c, cs, hj, hc⟩ := joinWords_head words hne hupper
  obtain ⟨x, hx1, hx2⟩ := joinWords_getLast words hne hupper
  unfold headerKey
  have ht : TrimSpace (joinWords words) = joinWords words := by
    rw [hj] at hx1 ⊢
    apply TrimSpace_of_ends c cs (upperAZ_not_space c hc)
    intro y hy
    rw [hx1] at hy
    cases hy
    exact upperAZ_not_space x hx2
  rw [ht, Title_ToLower_joinWords words hupper]

theorem headerMatch_label_colon (label ws : Str) (c : Char) (cs : Str) (hl : label = c :: cs)
    (hc : isUpperAZ c = true) (hlabel : ∀ x ∈ label, isLabelChar x = true)
    (hws : ∀ x ∈ ws, isSpaceRe x = true) :
    headerMatch (label ++ ':' :: ws) = some label := by
  have hcolon : ¬ (isLabelChar ':' = true) := by decide
  have h1 : (label ++ ':' :: ws).takeWhile isLabelChar = label := by
    rw [List.takeWhile_append_of_pos hlabel, List.takeWhile_cons_of_neg hcolon]
    simp
  have h2 : (label ++ ':' :: ws).dropWhile isLabelChar = ':' :: ws := by
    rw [List.dropWhile_append_of_pos hlabel, List.dropWhile_cons_of_neg hcolon]
  unfold headerMatch
  rw [h1, h2, hl]
  have hall : ws.all isSpaceRe = true := by simpa using hws
  simp [hc, hall]

theorem headerMatch_joinWords (words : List Str) (hne : words ≠ [])
    (hupper : ∀ w ∈ words, w ≠ [] ∧ ∀ c ∈ w, isUpperAZ c = true) :
    headerMatch (joinWords words ++ [':']) = some (joinWords words) := by
  obtain ⟨c, cs, hj, hc⟩ := joinWords_head words hne hupper
  exact headerMatch_label_colon _ [] c cs hj hc (joinWords_label words hupper) (by simp)

/-! ## Lemmas: the lines of a section -/

theorem linesUnder_append (k cur : Str) (a b : List Str) :
    linesUnder k cur (a ++ b) = linesUnder k cur a ++ linesUnder k (activeHeader cur a) b := by
  induction a generalizing cur with
  | nil => simp [linesUnder, activeHeader]
  | cons l ls ih =>
    cases hl : headerMatch l with
    | some sm1 => simp [linesUnder, activeHeader, hl, ih]
    | none =>
      by_cases hk : cur = k
      · simp [linesUnder, activeHeader, hl, ih, hk]
      · simp [linesUnder, activeHeader, hl, ih, hk]

theorem linesUnder_body (k : Str) (body : List Str) (hbody : ∀ l ∈ body, headerMatch l = none) :
    linesUnder k k body = body ∧ activeHeader k body = k := by
  induction body with
  | nil => simp [linesUnder, activeHeader]
  | cons l ls ih =>
    have hl := hbody l (by simp)
    obtain ⟨h1, h2⟩ := ih (fun x hx => hbody x (by simp [hx]))
    constructor
    · simp [linesUnder, hl, h1]
    · simpa [activeHeader, hl] using h2

theorem linesUnder_no_key (k cur : Str) (ls : List Str) (hcur : cur ≠ k)
    (h : ∀ l ∈ ls, ∀ sm1, headerMatch l = some sm1 → headerKey sm1 ≠ k) :
    linesUnder k cur ls = [] := by
  induction ls generalizing cur with
  | nil => rfl
  | cons l ls ih =>
    have ih2 := fun c hc => ih c hc (fun x hx => h x (by simp [hx]))
    cases hl : headerMatch l with
    | some sm1 =>
      simp only [linesUnder, hl]
      exact ih2 _ (h l (by simp) sm1 hl)
    | none =>
      simp only [linesUnder, hl, hcur, if_false]
      exact ih2 _ hcur

theorem linesUnder_sublist (k cur : Str) (ls : List Str) :
    (linesUnder k cur ls).Sublist ls ∧ ∀ l ∈ linesUnder k cur ls, headerMatch l = none := by
  induction ls generalizing cur with
  | nil => simp [linesUnder]
  | cons l ls ih =>
    cases hl : headerMatch l with
    | some sm1 =>
      simp only [linesUnder, hl]
      exact ⟨List.Sublist.cons _ (ih _).1, (ih _).2⟩
    | none =>
      by_cases hk : cur = k
      · simp only [linesUnder, hl, hk, if_true]
        refine ⟨List.Sublist.cons₂ _ (ih _).1, ?_⟩
        intro x hx
        rcases List.mem_cons.1 hx with hx | hx
        · subst hx; exact hl
        · exact (ih _).2 x hx
      · simp only [linesUnder, hl, hk, if_false]
        exact ⟨List.Sublist.cons _ (ih _).1, (ih _).2⟩

theorem parseHelpLoop_get (lines : List Str) (k : Str) :
    mapGet (parseHelpLoop lines).2 k =
      if linesUnder k [] lines = [] then none else some (catLines (linesUnder k [] lines)) := by
  unfold parseHelpLoop
  rw [foldl_parseHelpStep_get]
  simp [mapGet]

theorem parseHelpLoop_getD (lines : List Str) (k : Str) :
    (mapGet (parseHelpLoop lines).2 k).getD [] = catLines (linesUnder k [] lines) := by
  rw [parseHelpLoop_get]
  by_cases h : linesUnder k [] lines = []
  · simp [h, catLines]
  · simp [h]

theorem foldl_parseHelpStep_preamble (ls : List Str) (v : Str)
    (h : ∀ l ∈ ls, headerMatch l = none) :
    ls.foldl parseHelpStep ([], [([], v)]) = ([], [([], v ++ catLines ls)]) := by
  induction ls generalizing v with
  | nil => simp [catLines]
  | cons l ls ih =>
    have hl := h l (by simp)
    rw [List.foldl_cons]
    have : parseHelpStep ([], [([], v)]) l = ([], [([], v ++ l ++ ['\n'])]) := by
      simp [parseHelpStep, hl, mapGet, mapSet]
    rw [this, ih _ (fun x hx => h x (by simp [hx])), catLines_cons]
    simp

theorem headerMatch_some_cons (line sm1 : Str) (h : headerMatch line = some sm1) :
    ∃ c cs, sm1 = c :: cs ∧ isUpperAZ c = true := by
  unfold headerMatch at h
  split at h
  · rename_i c label colon ws h1 h2
    split at h
    · rename_i hc
      simp only [Bool.and_eq_true] at hc
      exact ⟨c, label, (Option.some.inj h).symm, hc.1.1⟩
    · cases h
  · cases h

theorem TrimSpace_ne_nil (c : Char) (cs : Str) (hc : isSpace c = false) :
    TrimSpace (c :: cs) ≠ [] := by
  unfold TrimSpace
  rw [List.dropWhile_cons_of_neg (by simp [hc])]
  intro h
  rw [List.rdropWhile_eq_nil_iff] at h
  have := h c (by simp)
  simp [hc] at this

theorem titleFrom_length (prev : Char) (s : Str) : (titleFrom prev s).length = s.length := by
  induction s generalizing prev with
  | nil => rfl
  | cons c cs ih => simp [titleFrom, ih]

theorem headerKey_ne_nil (line sm1 : Str) (h : headerMatch line = some sm1) :
    headerKey sm1 ≠ [] := by
  obtain ⟨c, cs, rfl, hc⟩ := headerMatch_some_cons line sm1 h
  have h1 := TrimSpace_ne_nil c cs (upperAZ_not_space c hc)
  intro h2
  have h3 : (headerKey (c :: cs)).length = (TrimSpace (c :: cs)).length := by
    simp [headerKey, Title, ToLower, titleFrom_length]
  rw [h2] at h3
  exact h1 (List.length_eq_zero.1 h3.symm)

theorem nil_not_mem_headerKeys (lines : List Str) : ([] : Str) ∉ headerKeys lines := by
  intro h
  simp only [headerKeys, List.mem_filterMap, Option.map_eq_some'] at h
  obtain ⟨l, _, sm1, hsm, hk⟩ := h
  exact headerKey_ne_nil l sm1 hsm hk

theorem firstOccurrences_nodup (l : List Str) (h : l.Nodup) : firstOccurrences l = l := by
  induction l with
  | nil => rfl
  | cons k ks ih =>
    rw [List.nodup_cons] at h
    simp only [firstOccurrences, ih h.2]
    congr 1
    rw [List.filter_eq_self]
    intro x hx
    simp only [ne_eq, decide_not, Bool.not_eq_eq_eq_not, Bool.not_true, decide_eq_false_iff_not]
    intro hxk
    exact h.1 (hxk ▸ hx)

theorem headerKeys_cons_header (l sm1 : Str) (ls : List Str) (h : headerMatch l = some sm1) :
    headerKeys (l :: ls) = headerKey sm1 :: headerKeys ls := by
  simp [headerKeys, List.filterMap_cons, h]

theorem headerKeys_cons_line (l : Str) (ls : List Str) (h : headerMatch l = none) :
    headerKeys (l :: ls) = headerKeys ls := by
  simp [headerKeys, List.filterMap_cons, h]

theorem mem_headerKeys (l sm1 : Str) (ls : List Str) (hl : l ∈ ls)
    (h : headerMatch l = some sm1) : headerKey sm1 ∈ headerKeys ls := by
  simp only [headerKeys, List.mem_filterMap, Option.map_eq_some']
  exact ⟨l, hl, sm1, h, rfl⟩

/-- With pairwise distinct section keys, the sections taken in header order are the
lines that are no header, in the order of the text. -/
theorem sections_in_order (lines : List Str) (cur : Str)
    (h : (cur :: headerKeys lines).Nodup) :
    ((cur :: headerKeys lines).map (fun k => catLines (linesUnder k cur lines))).flatten
      = catLines (lines.filter (fun l => (headerMatch l).isNone)) := by
  induction lines generalizing cur with
  | nil => simp [headerKeys, linesUnder, catLines]
  | cons l ls ih =>
    cases hl : headerMatch l with
    | some sm1 =>
      rw [headerKeys_cons_header l sm1 ls hl] at h ⊢
      have hnd := List.nodup_cons.1 h
      have hcur : linesUnder cur (headerKey sm1) ls = [] := by
        apply linesUnder_no_key
        · intro he
          exact hnd.1 (by simp [he])
        · intro x hx sm hsm he
          exact hnd.1 (by rw [← he]; simp [mem_headerKeys x sm ls hx hsm])
      have ih2 := ih (headerKey sm1) hnd.2
      simp only [List.map_cons, List.flatten_cons, linesUnder, hl] at ih2 ⊢
      rw [hcur, ih2]
      simp [List.filter_cons, hl, catLines]
    | none =>
      rw [headerKeys_cons_line l ls hl] at h ⊢
      have hnd := List.nodup_cons.1 h
      have ih2 := ih cur h
      have hrest : (headerKeys ls).map (fun k => catLines (linesUnder k cur (l :: ls)))
          = (headerKeys ls).map (fun k => catLines (linesUnder k cur ls)) := by
        apply List.map_congr_left
        intro k hk
        have : cur ≠ k := fun he => hnd.1 (he ▸ hk)
        simp [linesUnder, hl, this]
      simp only [List.map_cons, List.flatten_cons] at ih2 ⊢
      rw [hrest]
      simp only [linesUnder, hl, if_true, catLines_cons, List.append_assoc]
      rw [ih2]
      simp [List.filter_cons, hl, catLines_cons]

theorem char_eq_of_toNat (c d : Char) (h : c.toNat = d.toNat) : c = d := by
  rw [← Char.ofNat_toNat c, ← Char.ofNat_toNat d, h]

theorem headerMatch_some_iff (line sm1 : Str) :
    headerMatch line = some sm1 ↔
      ∃ c cs ws, sm1 = c :: cs ∧ line = sm1 ++ ':' :: ws ∧ isUpperAZ c = true ∧
        (∀ x ∈ cs, isLabelChar x = true) ∧ ∀ x ∈ ws, isSpaceRe x = true := by
  constructor
  · intro h
    unfold headerMatch at h
    split at h
    · rename_i c label colon ws h1 h2
      split at h
      · rename_i hc
        simp only [Bool.and_eq_true, beq_iff_eq, List.all_eq_true] at hc
        have hsm : sm1 = c :: label := (Option.some.inj h).symm
        have hcolon : colon = ':' := char_eq_of_toNat _ _ hc.1.2
        refine ⟨c, label, ws, hsm, ?_, hc.1.1, ?_, hc.2⟩
        · rw [hsm, ← h1, ← hcolon, ← h2, List.takeWhile_append_dropWhile]
        · intro x hx
          have : x ∈ line.takeWhile isLabelChar := by rw [h1]; simp [hx]
          exact List.mem_takeWhile_imp this
      · cases h
    · cases h
  · rintro ⟨c, cs, ws, hsm, hline, hc, hcs, hws⟩
    rw [hline]
    apply headerMatch_label_colon sm1 ws c cs hsm hc _ hws
    intro x hx
    rw [hsm] at hx
    rcases List.mem_cons.1 hx with hx | hx
    · subst hx; exact upperAZ_label _ hc
    · exact hcs x hx

/-! ## Lemmas: `ParseName` -/

theorem lineTerm_isSpace (c : Char) (h : isLineTerm c = true) : isSpace c = true := by
  simp only [isLineTerm, Bool.or_eq_true, beq_iff_eq] at h
  simp only [isSpace, Bool.or_eq_true, Bool.and_eq_true, decide_eq_true_eq, beq_iff_eq]
  omega

theorem not_lineTerm_of_not_space (c : Char) (h : isSpace c = false) : isLineTerm c = false := by
  cases hl : isLineTerm c with
  | false => rfl
  | true => rw [lineTerm_isSpace c hl] at h; cases h

theorem ne_space_of_not_space (c : Char) (h : isSpace c = false) : c ≠ ' ' := by
  intro he
  subst he
  revert h
  decide

theorem cutFirst_none_of_no_space (n : Str) (hn : ∀ c ∈ n, isSpace c = false) :
    cutFirst [' ', '-', ' '] n = none := by
  induction n with
  | nil => rfl
  | cons c cs ih =>
    have hc := ne_space_of_not_space c (hn c (by simp))
    have ih2 := ih (fun x hx => hn x (by simp [hx]))
    simp [cutFirst, List.isPrefixOf, Ne.symm hc, ih2]

theorem cutFirst_name (n u : Str) (hn : ∀ c ∈ n, isSpace c = false) :
    cutFirst [' ', '-', ' '] (n ++ [' ', '-', ' '] ++ u) = some (n, u) := by
  induction n with
  | nil => simp [cutFirst, List.isPrefixOf]
  | cons c cs ih =>
    have hc := ne_space_of_not_space c (hn c (by simp))
    have ih2 := ih (fun x hx => hn x (by simp [hx]))
    simp only [List.cons_append, List.append_assoc, List.nil_append] at ih2 ⊢
    simp [cutFirst, List.isPrefixOf, Ne.symm hc, ih2]

theorem cutFirst_padded_none (k : Nat) (n : Str) (hn : ∀ c ∈ n, isSpace c = false) :
    cutFirst [' ', '-', ' '] (List.replicate k ' ' ++ n) = none := by
  induction k with
  | zero => simpa using cutFirst_none_of_no_space n hn
  | succ k ih =>
    have hpre : List.isPrefixOf [' ', '-', ' '] (' ' :: (List.replicate k ' ' ++ n)) = false := by
      cases k with
      | zero =>
        cases n with
        | nil => simp [List.isPrefixOf]
        | cons c cs =>
          cases cs with
          | nil => simp [List.isPrefixOf]
          | cons d ds =>
            have hd := ne_space_of_not_space d (hn d (by simp))
            simp [List.isPrefixOf, Ne.symm hd]
      | succ k => simp [List.isPrefixOf, List.replicate_succ]
    rw [List.replicate_succ, List.cons_append, cutFirst, hpre]
    simp [ih]

theorem cutFirst_padded_name (k : Nat) (n u : Str) (hn : ∀ c ∈ n, isSpace c = false)
    (hdash : ¬ (n = ['-'] ∧ 0 < k)) :
    cutFirst [' ', '-', ' '] (List.replicate k ' ' ++ n ++ [' ', '-', ' '] ++ u)
      = some (List.replicate k ' ' ++ n, u) := by
  induction k with
  | zero => simpa using cutFirst_name n u hn
  | succ k ih =>
    have hne : n ≠ ['-'] := fun h => hdash ⟨h, Nat.succ_pos k⟩
    have hpre : List.isPrefixOf [' ', '-', ' ']
        (' ' :: (List.replicate k ' ' ++ n ++ [' ', '-', ' '] ++ u)) = false := by
      cases k with
      | zero =>
        cases n with
        | nil => simp [List.isPrefixOf]
        | cons c cs =>
          cases cs with
          | nil =>
            have : c ≠ '-' := fun h => hne (by rw [h])
            simp [List.isPrefixOf, Ne.symm this]
          | cons d ds =>
            have hd := ne_space_of_not_space d (hn d (by simp))
            simp [List.isPrefixOf, Ne.symm hd]
      | succ k => simp [List.isPrefixOf, List.replicate_succ]
    have ih2 := ih (fun h => hne h.1)
    rw [List.replicate_succ]
    simp only [List.cons_append]
    rw [cutFirst, hpre, ih2]
    simp

theorem TrimSpace_padded (w n : Str) (hw : ∀ c ∈ w, isSpace c = true) (hne : n ≠ [])
    (hn : ∀ c ∈ n, isSpace c = false) : TrimSpace (w ++ n) = n := by
  cases n with
  | nil => exact absurd rfl hne
  | cons c cs =>
    have h1 : (w ++ c :: cs).dropWhile isSpace = c :: cs := by
      rw [List.dropWhile_append_of_pos hw,
        List.dropWhile_cons_of_neg (by simp [hn c (by simp)])]
    have h2 := TrimSpace_of_ends c cs (hn c (by simp))
      (fun x hx => hn x (List.mem_of_mem_getLast? hx))
    unfold TrimSpace at h2 ⊢
    rw [List.dropWhile_cons_of_neg (by simp [hn c (by simp)])] at h2
    rw [h1, h2]

theorem splitLines_single_line (line : Str) (h : ∀ c ∈ line, isLineTerm c = false) :
    splitLines (line ++ ['\n']) = [line, []] := by
  unfold splitLines
  rw [splitBy_append_sep isLineTerm line '\n' [] h (by decide)]
  rfl

/-! ## Lemmas: `ParseCommands` -/

theorem alpha_not_spaceRe (c : Char) (h : isAlphaAZ c = true) : isSpaceRe c = false := by
  simp only [isAlphaAZ, Bool.or_eq_true, Bool.and_eq_true, decide_eq_true_eq] at h
  simp only [isSpaceRe, Bool.or_eq_false_iff, beq_eq_false_iff_ne, ne_eq]
  omega

theorem commandMatch_wellFormed (l : CommandLine) (h : l.wellFormed = true) :
    commandMatch l.text = some l.token := by
  obtain ⟨indent, token, stop, rest⟩ := l
  simp only [CommandLine.wellFormed, Bool.and_eq_true, Bool.not_eq_true', List.all_eq_true,
    List.isEmpty_eq_false] at h
  obtain ⟨⟨⟨hne, hind⟩, htok⟩, hstop⟩ := h
  cases token with
  | nil => simp [isCommandToken] at htok
  | cons c cs =>
    simp only [isCommandToken, Bool.and_eq_true, List.all_eq_true] at htok
    obtain ⟨hc, hcs⟩ := htok
    have hcs2 : ∀ x ∈ cs, (fun x => !isTokenEnd x) x = true := hcs
    have hnc : ¬ (isSpaceRe c = true) := by simp [alpha_not_spaceRe c hc]
    have h1 : (indent ++ (c :: cs) ++ stop :: rest).takeWhile isSpaceRe = indent := by
      rw [List.append_assoc, List.takeWhile_append_of_pos hind, List.cons_append,
        List.takeWhile_cons_of_neg hnc]
      simp
    have h2 : (indent ++ (c :: cs) ++ stop :: rest).dropWhile isSpaceRe
        = c :: (cs ++ stop :: rest) := by
      rw [List.append_assoc, List.dropWhile_append_of_pos hind, List.cons_append,
        List.dropWhile_cons_of_neg hnc]
    have h3 : (cs ++ stop :: rest).takeWhile (fun x => !isTokenEnd x) = cs := by
      rw [List.takeWhile_append_of_pos hcs2]
      simp [List.takeWhile_cons, hstop]
    have h4 : (cs ++ stop :: rest).dropWhile (fun x => !isTokenEnd x) = stop :: rest := by
      rw [List.dropWhile_append_of_pos hcs2]
      simp [List.dropWhile_cons, hstop]
    cases indent with
    | nil => exact absurd rfl hne
    | cons i is =>
      simp only [CommandLine.text, commandMatch]
      rw [h1, h2]
      simp only [hc, if_true]
      rw [h4, h3]

theorem ParseCommands_foldl (lines : List Str) (acc : List Str) :
    lines.foldl
      (fun result line =>
        match commandMatch line with
        | some sm1 => if sm1 ≠ ['h', 'e', 'l', 'p'] then result ++ [sm1] else result
        | none => result) acc
      = acc ++ (lines.filterMap commandMatch).filter (fun t => t ≠ ['h', 'e', 'l', 'p']) := by
  induction lines generalizing acc with
  | nil => simp
  | cons l ls ih =>
    rw [List.foldl_cons, ih]
    cases hl : commandMatch l with
    | none => simp [List.filterMap_cons, hl]
    | some sm1 =>
      by_cases hh : sm1 = ['h', 'e', 'l', 'p']
      · simp [List.filterMap_cons, hl, hh, List.filter_cons]
      · simp [List.filterMap_cons, hl, hh, List.filter_cons]

theorem ParseCommands_eq (text : Str) :
    ParseCommands text = ((splitLines text).filterMap commandMatch).filter
      (fun t => t ≠ ['h', 'e', 'l', 'p']) := by
  unfold ParseCommands
  rw [ParseCommands_foldl]
  simp

theorem filterMap_commandMatch_wellFormed (ls : List CommandLine)
    (h : ∀ l ∈ ls, l.wellFormed = true) :
    (ls.map CommandLine.text).filterMap commandMatch = ls.map CommandLine.token := by
  induction ls with
  | nil => rfl
  | cons l ls ih =>
    rw [List.map_cons, List.filterMap_cons, commandMatch_wellFormed l (h l (by simp)),
      ih (fun x hx => h x (by simp [hx]))]
    rfl

/-! ## Lemmas: `ParseDescription` -/

theorem TrimSpace_getLast (s : Str) (c : Char) (h : (TrimSpace s).getLast? = some c) :
    isSpace c = false := by
  have hne : TrimSpace s ≠ [] := by
    intro he; rw [he] at h; cases h
  have h1 := List.rdropWhile_last_not (p := isSpace) (l := s.dropWhile isSpace) hne
  rw [List.getLast?_eq_getLast _ hne] at h
  have h2 : (TrimSpace s).getLast hne = c := Option.some.inj h
  unfold TrimSpace at h2
  rw [h2] at h1
  simpa using h1

theorem TrimSpace_head (s : Str) (c : Char) (h : (TrimSpace s).head? = some c) :
    isSpace c = false := by
  have hpre : TrimSpace s <+: s.dropWhile isSpace := List.rdropWhile_prefix _ _
  obtain ⟨t, ht⟩ := hpre
  cases hts : TrimSpace s with
  | nil => rw [hts] at h; cases h
  | cons x xs =>
    rw [hts] at h ht
    have hx : x = c := Option.some.inj h
    have h2 := List.head?_dropWhile_not isSpace s
    rw [← ht] at h2
    simp only [List.cons_append, List.head?_cons] at h2
    rw [← hx]
    exact h2

theorem foldl_description (lines : List Str) (acc : Str) :
    lines.foldl (fun result line => result ++ TrimSpace line ++ ['\n']) acc
      = acc ++ catLines (lines.map TrimSpace) := by
  induction lines generalizing acc with
  | nil => simp [catLines]
  | cons l ls ih =>
    rw [List.foldl_cons, ih, List.map_cons, catLines_cons]
    simp

theorem dropWhile_catLines (ts : List Str)
    (h : ∀ t ∈ ts, ∀ c, t.head? = some c → isSpace c = false) :
    (catLines ts).dropWhile isSpace = catLines (ts.dropWhile List.isEmpty) := by
  induction ts with
  | nil => rfl
  | cons t rest ih =>
    have ih2 := ih (fun x hx => h x (by simp [hx]))
    cases t with
    | nil =>
      rw [catLines_cons, List.nil_append, List.singleton_append,
        List.dropWhile_cons_of_pos (by decide), ih2]
      simp [List.dropWhile_cons]
    | cons c cs =>
      have hc := h (c :: cs) (by simp) c rfl
      rw [catLines_cons, List.cons_append, List.cons_append,
        List.dropWhile_cons_of_neg (by simp [hc])]
      simp [List.dropWhile_cons, catLines_cons]

theorem rdropWhile_catLines (ts : List Str)
    (h : ∀ t ∈ ts, ∀ c, t.getLast? = some c → isSpace c = false) :
    (catLines ts).rdropWhile isSpace = (catLines (ts.rdropWhile List.isEmpty)).dropLast := by
  induction ts using List.reverseRecOn with
  | nil => rfl
  | append_singleton init t ih =>
    have ih2 := ih (fun x hx => h x (by simp [hx]))
    have hcat : catLines (init ++ [t]) = (catLines init ++ t) ++ ['\n'] := by
      simp [catLines_append, catLines_cons, catLines]
    rw [hcat, List.rdropWhile_concat_pos _ _ _ (by decide)]
    rcases List.eq_nil_or_concat t with ht | ⟨t', c, ht⟩
    · subst ht
      rw [List.append_nil, ih2, List.rdropWhile_concat_pos _ _ _ (by rfl)]
    · rw [List.concat_eq_append] at ht
      have hc := h t (by simp) c (by rw [ht]; simp)
      have hne : t.isEmpty = false := by rw [ht]; simp
      rw [List.rdropWhile_concat_neg _ _ _ (by simp [hne]), hcat, List.dropLast_concat]
      rw [ht, ← List.append_assoc, List.rdropWhile_concat_neg _ _ _ (by simp [hc])]

theorem catLines_intercalate (core : List Str) (h : core ≠ []) :
    catLines core = ['\n'].intercalate core ++ ['\n'] := by
  induction core with
  | nil => exact absurd rfl h
  | cons t rest ih =>
    cases rest with
    | nil => simp [catLines, List.intercalate]
    | cons t' rest' =>
      rw [catLines_cons, ih (by simp)]
      simp [List.intercalate, List.intersperse]

/-- The value of `ParseDescription` in closed form. -/
theorem ParseDescription_eq (s : Str) :
    ParseDescription s = catLines (descriptionLines s) := by
  unfold descriptionLines
  have hhead : ∀ t ∈ (splitLines s).map TrimSpace, ∀ c, t.head? = some c → isSpace c = false := by
    intro t ht c hc
    obtain ⟨l, _, rfl⟩ := List.mem_map.1 ht
    exact TrimSpace_head l c hc
  have hlast : ∀ t ∈ ((splitLines s).map TrimSpace).dropWhile List.isEmpty,
      ∀ c, t.getLast? = some c → isSpace c = false := by
    intro t ht c hc
    obtain ⟨l, _, rfl⟩ := List.mem_map.1 ((List.dropWhile_sublist _).subset ht)
    exact TrimSpace_getLast l c hc
  unfold ParseDescription
  simp only [foldl_description, List.nil_append]
  rw [show TrimSpace (catLines ((splitLines s).map TrimSpace))
      = ((catLines ((splitLines s).map TrimSpace)).dropWhile isSpace).rdropWhile isSpace
      from rfl, dropWhile_catLines _ hhead, rdropWhile_catLines _ hlast]
  rcases List.eq_nil_or_concat
      ((((splitLines s).map TrimSpace).dropWhile List.isEmpty).rdropWhile List.isEmpty)
    with hcore | ⟨init, t, hcore⟩
  · rw [hcore]
    simp [catLines]
  · rw [List.concat_eq_append] at hcore
    have ht : ¬ (t.isEmpty = true) := by
      have := List.rdropWhile_last_not (p := List.isEmpty)
        (l := ((splitLines s).map TrimSpace).dropWhile List.isEmpty)
        (by rw [hcore]; simp)
      simpa [hcore] using this
    have hcat : catLines (init ++ [t]) = (catLines init ++ t) ++ ['\n'] := by
      simp [catLines_append, catLines_cons, catLines]
    rw [hcore, hcat, List.dropLast_concat]
    have hne : catLines init ++ t ≠ [] := by
      intro he
      have := (List.append_eq_nil.1 he).2
      exact ht (by simp [this])
    simp [hne]

theorem descriptionLines_eq_nil (s : Str) :
    descriptionLines s = [] ↔ ∀ l ∈ splitLines s, TrimSpace l = [] := by
  unfold descriptionLines
  rw [List.rdropWhile_eq_nil_iff]
  constructor
  · intro h
    have hD : ((splitLines s).map TrimSpace).dropWhile List.isEmpty = [] := by
      cases hd : ((splitLines s).map TrimSpace).dropWhile List.isEmpty with
      | nil => rfl
      | cons d ds =>
        have h1 := List.head?_dropWhile_not List.isEmpty ((splitLines s).map TrimSpace)
        rw [hd] at h1 h
        simp only [List.head?_cons] at h1
        have h2 := h d (by simp)
        rw [h1] at h2
        cases h2
    rw [List.dropWhile_eq_nil_iff] at hD
    intro l hl
    have := hD (TrimSpace l) (List.mem_map_of_mem _ hl)
    simpa using this
  · intro h x hx
    obtain ⟨l, hl, rfl⟩ := List.mem_map.1 ((List.dropWhile_sublist _).subset hx)
    simp [h l hl]

theorem descriptionLines_getLast (s : Str) (t : Str)
    (h : (descriptionLines s).getLast? = some t) :
    ∃ t' c, t = t' ++ [c] ∧ isSpace c = false := by
  have hne : descriptionLines s ≠ [] := by
    intro he; rw [he] at h; cases h
  have h1 := List.rdropWhile_last_not (p := List.isEmpty)
    (l := ((splitLines s).map TrimSpace).dropWhile List.isEmpty) hne
  rw [List.getLast?_eq_getLast _ hne] at h
  have h2 : (descriptionLines s).getLast hne = t := Option.some.inj h
  unfold descriptionLines at h2
  rw [h2] at h1
  have hmem : t ∈ (splitLines s).map TrimSpace := by
    have : t ∈ descriptionLines s := List.mem_of_mem_getLast? (by
      rw [List.getLast?_eq_getLast _ hne]; exact congrArg some h2)
    exact (List.dropWhile_sublist _).subset ((List.rdropWhile_prefix _ _).subset this)
  obtain ⟨l, _, rfl⟩ := List.mem_map.1 hmem
  rcases List.eq_nil_or_concat (TrimSpace l) with ht | ⟨t', c, ht⟩
  · rw [ht] at h1; simp at h1
  · rw [List.concat_eq_append] at ht
    exact ⟨t', c, ht, TrimSpace_getLast l c (by rw [ht]; simp)⟩

/-! ## Lemmas: the accessors and the renderer -/

theorem parseNameLoop_isSome (lines : List Str) (name usage : Str) :
    (parseNameLoop name usage lines).isSome = true := by
  induction lines generalizing name usage with
  | nil => rfl
  | cons line rest ih =>
    unfold parseNameLoop SplitN2
    cases hcut : cutFirst [' ', '-', ' '] line with
    | none =>
      simp only
      split
      · exact ih _ _
      · rfl
    | some ab =>
      obtain ⟨a, b⟩ := ab
      simp only
      split
      · exact ih _ _
      · rfl

theorem quotedInfo_head (info : Str) : ∃ rest, quotedInfo info = '>' :: ' ' :: rest := by
  have hfold : ∀ (ls : List Str) (acc : Str),
      ls.foldl (fun acc line => acc ++ ['>', ' '] ++ line ++ ['\n']) acc
        = acc ++ ls.foldl (fun acc line => acc ++ ['>', ' '] ++ line ++ ['\n']) [] := by
    intro ls
    induction ls with
    | nil => simp
    | cons l ls ih =>
      intro acc
      rw [List.foldl_cons, ih, List.foldl_cons, ih ([] ++ ['>', ' '] ++ l ++ ['\n'])]
      simp
  unfold quotedInfo
  cases hs : splitNewline (trimSuffixNewline info) with
  | nil => exact absurd hs (splitBy_ne_nil _ _)
  | cons l ls =>
    simp only [List.length_cons, gt_iff_lt, Nat.zero_lt_succ, if_true, List.foldl_cons]
    rw [hfold]
    simp

theorem generateSubs_get (commands : List Command) (i : Nat) (child : Command) (depth : Nat)
    (h : commands.get? i = some child) :
    ∃ a b, generateSubs commands depth = a ++ '\n' :: generate child (depth + 1) ++ b := by
  induction commands generalizing i with
  | nil => simp at h
  | cons c cs ih =>
    cases i with
    | zero =>
      simp only [List.get?_cons_zero, Option.some.injEq] at h
      subst h
      exact ⟨[], generateSubs cs depth, by simp [generateSubs]⟩
    | succ i =>
      simp only [List.get?_cons_succ] at h
      obtain ⟨a, b, hab⟩ := ih i h
      refine ⟨'\n' :: generate c (depth + 1) ++ a, b, ?_⟩
      rw [generateSubs, hab]
      simp

theorem generate_sub (path : List Nat) (c node : Command) (depth : Nat)
    (h : c.sub path = some node) :
    ∃ pre post, generate c depth = pre ++ generate node (depth + path.length) ++ post ∧
      (path = [] → pre = []) ∧ (path ≠ [] → ∃ q, pre = q ++ ['\n']) := by
  induction path generalizing c depth with
  | nil =>
    simp only [Command.sub, Option.some.injEq] at h
    subst h
    exact ⟨[], [], by simp, fun _ => rfl, fun hne => absurd rfl hne⟩
  | cons i p ih =>
    obtain ⟨name, info, description, help, commands⟩ := c
    simp only [Command.sub] at h
    cases hget : commands.get? i with
    | none => rw [hget] at h; cases h
    | some child =>
      rw [hget] at h
      obtain ⟨a, b, hab⟩ := generateSubs_get commands i child depth hget
      obtain ⟨pre, post, hgen, hnil, hcons⟩ := ih child (depth + 1) h
      have hlen : depth + (i :: p).length = depth + 1 + p.length := by
        simp only [List.length_cons]; omega
      refine ⟨sectionBody name info description help depth ++ a ++ ['\n'] ++ pre, post ++ b,
        ?_, fun hne => absurd hne (by simp), fun _ => ?_⟩
      · rw [generate, hab, hgen, hlen]
        simp
      · by_cases hp : p = []
        · exact ⟨sectionBody name info description help depth ++ a, by simp [hnil hp]⟩
        · obtain ⟨q, hq⟩ := hcons hp
          exact ⟨sectionBody name info description help depth ++ a ++ ['\n'] ++ q, by
            simp [hq]⟩

theorem generate_heading (node : Command) (depth : Nat) :
    ∃ tail, generate node depth =
      List.replicate (depth + 1) '#' ++ ' ' :: headingName node.Name ++
        '\n' :: '\n' :: '>' :: tail := by
  obtain ⟨name, info, description, help, commands⟩ := node
  obtain ⟨rest, hrest⟩ := quotedInfo_head info
  refine ⟨' ' :: rest ++ paddedDescription description ++ ['`', '`', '`', '\n'] ++ help ++
    ['\n'] ++ ['`', '`', '`', '\n'] ++ generateSubs commands depth, ?_⟩
  rw [generate, sectionBody, hrest]
  simp [Command.Name]

theorem generateSubs_eq (commands : List Command) (depth : Nat) :
    generateSubs commands depth
      = (commands.map (fun c => '\n' :: generate c (depth + 1))).flatten := by
  induction commands with
  | nil => simp [generateSubs]
  | cons c cs ih => simp [generateSubs, ih]

/-! ## Lemmas: the tree builder -/

theorem ParseName_isSome (s : Str) : ∃ r, ParseName s = some r :=
  Option.isSome_iff_exists.1 (parseNameLoop_isSome _ _ _)

theorem Help_Name_some (h : Help) : Help.Name h = some ((Help.Name h).getD []) := by
  cases h with
  | none => rfl
  | some m =>
    cases hg : mapGet m ['N', 'a', 'm', 'e'] with
    | none => simp [Help.Name, hg]
    | some help =>
      obtain ⟨r, hr⟩ := ParseName_isSome help
      simp [Help.Name, hg, hr]

theorem Help_Usage_some (h : Help) : Help.Usage h = some ((Help.Usage h).getD []) := by
  cases h with
  | none => rfl
  | some m =>
    cases hg : mapGet m ['N', 'a', 'm', 'e'] with
    | none => simp [Help.Usage, hg]
    | some help =>
      obtain ⟨r, hr⟩ := ParseName_isSome help
      simp [Help.Usage, hg, hr]

theorem Help_Version_some (h : Help) : Help.Version h = some ((Help.Version h).getD []) := by
  cases h with
  | none => rfl
  | some m =>
    cases hg : mapGet m ['V', 'e', 'r', 's', 'i', 'o', 'n'] <;> simp [Help.Version, hg]

theorem Help_Description_some (h : Help) :
    Help.Description h = some ((Help.Description h).getD []) := by
  cases h with
  | none => rfl
  | some m =>
    cases hg : mapGet m ['D', 'e', 's', 'c', 'r', 'i', 'p', 't', 'i', 'o', 'n'] <;>
      simp [Help.Description, hg]

theorem Help_Commands_some (h : Help) :
    Help.Commands h = some ((Help.Commands h).getD []) := by
  cases h with
  | none => rfl
  | some m =>
    cases hg : mapGet m ['C', 'o', 'm', 'm', 'a', 'n', 'd', 's'] <;>
      simp [Help.Commands, hg]

theorem GetCommandOutput_help (exec : Invoker) (base : List Str) :
    GetCommandOutput exec (base ++ ["--help".toList]) =
      match exec (base ++ ["--help".toList]) with
      | (b, some err) =>
        (b, some ("docgen.GetCommandOutput exec error for args (".toList ++
          joinArgs (base ++ ["--help".toList]) ++ "): ".toList ++ err))
      | (b, none) => (b, none) := by
  unfold GetCommandOutput
  have : ¬ ((base ++ ["--help".toList]).length < 1) := by simp
  rw [if_neg this]

/-- One call of `generate`, when the invocation succeeds. -/
theorem generate_succ_ok (exec : Invoker) (fuel : Nat) (base : List Str) (helpStr : Str)
    (h : exec (base ++ ["--help".toList]) = (helpStr, none)) :
    commandHelp.generate exec (fuel + 1) base =
      match generateEach (fun subCommand => commandHelp.generate exec fuel
          (base ++ [subCommand])) (subCommandNames helpStr) [] with
      | none => none
      | some (.error err) => some (.error err)
      | some (.ok commands) => some (.ok (filledIn base helpStr commands)) := by
  rw [commandHelp.generate, GetCommandOutput_help, h]
  simp only
  rw [Help_Name_some, Help_Version_some, Help_Usage_some, Help_Description_some,
    Help_Commands_some]
  simp only [subCommandNames, filledIn]

/-- One call of `generate`, when the invocation fails. -/
theorem generate_succ_error (exec : Invoker) (fuel : Nat) (base : List Str) (out err : Str)
    (h : exec (base ++ ["--help".toList]) = (out, some err)) :
    commandHelp.generate exec (fuel + 1) base =
      some (.error ("docgen.GetCommandOutput exec error for args (".toList ++
        joinArgs (base ++ ["--help".toList]) ++ "): ".toList ++ err)) := by
  rw [commandHelp.generate, GetCommandOutput_help, h]

theorem generateEach_ok (gen : Str → Option (Except Str commandHelp)) (names : List Str)
    (acc cs : List commandHelp) (h : generateEach gen names acc = some (.ok cs)) :
    ∃ built, cs = acc ++ built ∧
      List.Forall₂ (fun n c => gen n = some (.ok c)) names built := by
  induction names generalizing acc with
  | nil =>
    simp only [generateEach, Option.some.injEq, Except.ok.injEq] at h
    exact ⟨[], by simp [h], List.Forall₂.nil⟩
  | cons n rest ih =>
    rw [generateEach] at h
    cases hg : gen n with
    | none => rw [hg] at h; cases h
    | some r =>
      cases r with
      | error e => rw [hg] at h; cases h
      | ok c =>
        rw [hg] at h
        obtain ⟨built, hcs, hall⟩ := ih (acc ++ [c]) h
        exact ⟨c :: built, by simp [hcs], List.Forall₂.cons hg hall⟩

theorem generateEach_error (gen : Str → Option (Except Str commandHelp))
    (before : List Str) (name : Str) (later : List Str) (acc : List commandHelp) (e : Str)
    (hbefore : ∀ x ∈ before, ∃ c, gen x = some (.ok c)) (hname : gen name = some (.error e)) :
    generateEach gen (before ++ name :: later) acc = some (.error e) := by
  induction before generalizing acc with
  | nil => simp [generateEach, hname]
  | cons x xs ih =>
    obtain ⟨c, hc⟩ := hbefore x (by simp)
    rw [List.cons_append, generateEach, hc]
    exact ih _ (fun y hy => hbefore y (by simp [hy]))

theorem generateEach_isSome (gen : Str → Option (Except Str commandHelp)) (names : List Str)
    (acc : List commandHelp) (h : ∀ x ∈ names, (gen x).isSome = true) :
    (generateEach gen names acc).isSome = true := by
  induction names generalizing acc with
  | nil => rfl
  | cons n rest ih =>
    have hn := h n (by simp)
    rw [generateEach]
    cases hg : gen n with
    | none => rw [hg] at hn; cases hn
    | some r =>
      cases r with
      | error e => rfl
      | ok c => exact ih _ (fun y hy => h y (by simp [hy]))

theorem generateEach_mono (gen gen' : Str → Option (Except Str commandHelp))
    (names : List Str) (acc : List commandHelp) (r : Except Str (List commandHelp))
    (hmono : ∀ x r, gen x = some r → gen' x = some r)
    (h : generateEach gen names acc = some r) : generateEach gen' names acc = some r := by
  induction names generalizing acc with
  | nil => simpa [generateEach] using h
  | cons n rest ih =>
    rw [generateEach] at h ⊢
    cases hg : gen n with
    | none => rw [hg] at h; cases h
    | some x =>
      rw [hmono n x hg]
      rw [hg] at h
      cases x with
      | error e => exact h
      | ok c => exact ih _ h

/-- What a successful call of `generate` has done. -/
theorem generate_ok_inv (exec : Invoker) (fuel : Nat) (base : List Str) (node : commandHelp)
    (h : commandHelp.generate exec fuel base = some (.ok node)) :
    ∃ f helpStr commands, fuel = f + 1 ∧
      exec (base ++ ["--help".toList]) = (helpStr, none) ∧
      node = filledIn base helpStr commands ∧
      List.Forall₂ (fun n c => commandHelp.generate exec f (base ++ [n]) = some (.ok c))
        (subCommandNames helpStr) commands := by
  cases fuel with
  | zero => simp [commandHelp.generate] at h
  | succ f =>
    cases hexec : exec (base ++ ["--help".toList]) with
    | mk out err =>
      cases err with
      | some e =>
        rw [generate_succ_error exec f base out e hexec] at h
        cases h
      | none =>
        rw [generate_succ_ok exec f base out hexec] at h
        cases hg : generateEach (fun subCommand => commandHelp.generate exec f
            (base ++ [subCommand])) (subCommandNames out) [] with
        | none => rw [hg] at h; cases h
        | some r =>
          rw [hg] at h
          cases r with
          | error e => cases h
          | ok commands =>
            simp only [Option.some.injEq, Except.ok.injEq] at h
            obtain ⟨built, hb, hall⟩ := generateEach_ok _ _ _ _ hg
            rw [List.nil_append] at hb
            subst hb
            exact ⟨f, out, commands, rfl, rfl, h.symm, hall⟩

theorem filledIn_base (base : List Str) (helpStr : Str) (commands : List commandHelp) :
    (filledIn base helpStr commands).base = base ∧
      (filledIn base helpStr commands).Help = helpStr ∧
      (filledIn base helpStr commands).commands = commands := ⟨rfl, rfl, rfl⟩

theorem forall₂_get (R : Str → commandHelp → Prop) (names : List Str)
    (commands : List commandHelp) (h : List.Forall₂ R names commands) (i : Nat)
    (child : commandHelp) (hi : commands.get? i = some child) :
    ∃ n, names.get? i = some n ∧ R n child := by
  induction h generalizing i with
  | nil => simp at hi
  | cons hr _ ih =>
    cases i with
    | zero =>
      simp only [List.get?_cons_zero, Option.some.injEq] at hi
      subst hi
      exact ⟨_, rfl, hr⟩
    | succ i =>
      simp only [List.get?_cons_succ] at hi
      exact ih i hi

/-- Every node of a built tree was built by a successful call of `generate` on its own
base, which is the base of the root extended by one name per level. -/
theorem sub_generated (exec : Invoker) (path : List Nat) (fuel : Nat) (base : List Str)
    (root node : commandHelp) (h : commandHelp.generate exec fuel base = some (.ok root))
    (hsub : root.sub path = some node) :
    ∃ f, commandHelp.generate exec f node.base = some (.ok node) ∧
      node.base.length = base.length + path.length := by
  induction path generalizing fuel base root with
  | nil =>
    simp only [commandHelp.sub, Option.some.injEq] at hsub
    subst hsub
    obtain ⟨f, helpStr, commands, _, _, hnode, _⟩ := generate_ok_inv exec fuel base root h
    have hb : root.base = base := by rw [hnode]; rfl
    exact ⟨fuel, by rw [hb]; exact h, by simp [hb]⟩
  | cons i p ih =>
    obtain ⟨f, helpStr, commands, _, _, hroot, hall⟩ := generate_ok_inv exec fuel base root h
    subst hroot
    simp only [filledIn, commandHelp.sub] at hsub
    cases hget : commands.get? i with
    | none => rw [hget] at hsub; cases hsub
    | some child =>
      rw [hget] at hsub
      obtain ⟨n, _, hchild⟩ := forall₂_get _ _ _ hall i child hget
      obtain ⟨f', hgen, hlen⟩ := ih f (base ++ [n]) child hchild hsub
      refine ⟨f', hgen, ?_⟩
      rw [hlen]
      simp only [List.length_append, List.length_cons, List.length_nil]
      omega

theorem reached_error (exec : Invoker) (fuel : Nat) (base p : List Str) (out err : Str)
    (hr : Reached exec fuel base p) (h : exec (p ++ ["--help".toList]) = (out, some err)) :
    commandHelp.generate exec fuel base =
      some (.error ("docgen.GetCommandOutput exec error for args (".toList ++
        joinArgs (p ++ ["--help".toList]) ++ "): ".toList ++ err)) := by
  induction hr with
  | here fuel base => exact generate_succ_error exec fuel base out err h
  | child fuel base helpStr before name later p hexec hnames hbefore _ ih =>
    rw [generate_succ_ok exec fuel base helpStr hexec, hnames,
      generateEach_error _ before name later [] _ hbefore (ih h)]

theorem NewCommand_ok (exec : Invoker) (fuel : Nat) (command : Str) (args : List Str)
    (root : commandHelp) (h : NewCommand exec fuel command args = some (.ok root)) :
    commandHelp.generate exec fuel (command :: args) = some (.ok root) := by
  unfold NewCommand at h
  cases hg : commandHelp.generate exec fuel (command :: args) with
  | none => rw [hg] at h; cases h
  | some r =>
    rw [hg] at h
    cases r with
    | error e => cases h
    | ok c =>
      simp only [Option.some.injEq, Except.ok.injEq] at h
      rw [h]

theorem help_not_mem_subCommandNames (helpStr : Str) :
    ['h', 'e', 'l', 'p'] ∉ subCommandNames helpStr := by
  unfold subCommandNames ParseHelp Help.Commands
  simp only
  cases mapGet (parseHelpLoop (splitLines helpStr)).2 ['C', 'o', 'm', 'm', 'a', 'n', 'd', 's'] with
  | none => simp
  | some sec =>
    simp only [Option.getD_some]
    intro hmem
    rw [ParseCommands_eq, List.mem_filter] at hmem
    simpa using hmem.2

theorem parseNameLoop_eq (lines : List Str) :
    parseNameLoop [] [] lines =
      some (match lines.find? (fun l => TrimSpace (leftOfSeparator l) ≠ []) with
        | none => ([], [])
        | some l => (TrimSpace (leftOfSeparator l),
            match rightOfSeparator l with
            | some r => TrimSpace r
            | none => [])) := by
  induction lines with
  | nil => rfl
  | cons line rest ih =>
    rw [parseNameLoop, List.find?_cons]
    unfold SplitN2 leftOfSeparator rightOfSeparator
    cases hcut : cutFirst [' ', '-', ' '] line with
    | none =>
      simp only
      by_cases ht : TrimSpace line = []
      · simp only [ht, if_true, ne_eq, not_true_eq_false, decide_False]
        rw [ih]
        rfl
      · simp [ht, hcut]
    | some ab =>
      obtain ⟨a, b⟩ := ab
      simp only
      by_cases ht : TrimSpace a = []
      · simp only [ht, if_true, ne_eq, not_true_eq_false, decide_False]
        rw [ih]
        rfl
      · simp [ht, hcut]

theorem dropWhile_rdropWhile_dropWhile {α : Type} (p : α → Bool) (l : List α) :
    ((l.dropWhile p).rdropWhile p).dropWhile p = (l.dropWhile p).rdropWhile p := by
  have hpre : (l.dropWhile p).rdropWhile p <+: l.dropWhile p := List.rdropWhile_prefix _ _
  obtain ⟨t, ht⟩ := hpre
  cases hR : (l.dropWhile p).rdropWhile p with
  | nil => rfl
  | cons x xs =>
    rw [hR] at ht
    have h2 := List.head?_dropWhile_not p l
    rw [← ht] at h2
    simp only [List.cons_append, List.head?_cons] at h2
    rw [List.dropWhile_cons_of_neg (by simp [h2])]

theorem TrimSpace_idem (s : Str) : TrimSpace (TrimSpace s) = TrimSpace s := by
  unfold TrimSpace
  rw [dropWhile_rdropWhile_dropWhile, List.rdropWhile_idempotent]

theorem mem_TrimSpace (s : Str) (c : Char) (h : c ∈ TrimSpace s) : c ∈ s :=
  (List.dropWhile_sublist _).subset ((List.rdropWhile_prefix _ _).subset h)

theorem TrimSpace_nil : TrimSpace [] = [] := rfl

theorem splitLines_catLines (core : List Str)
    (h : ∀ t ∈ core, ∀ c ∈ t, isLineTerm c = false) :
    splitLines (catLines core) = core ++ [[]] := by
  induction core with
  | nil => rfl
  | cons t rest ih =>
    have ih2 := ih (fun x hx => h x (by simp [hx]))
    unfold splitLines at ih2 ⊢
    rw [catLines_cons, List.append_assoc, List.singleton_append,
      splitBy_append_sep isLineTerm t '\n' _ (h t (by simp)) (by decide), ih2]
    rfl

theorem descriptionLines_catLines (core : List Str)
    (h1 : ∀ t ∈ core, ∀ c ∈ t, isLineTerm c = false)
    (h2 : ∀ t ∈ core, TrimSpace t = t)
    (h3 : core.dropWhile List.isEmpty = core)
    (h4 : core.rdropWhile List.isEmpty = core) :
    descriptionLines (catLines core) = core := by
  unfold descriptionLines
  have hmap : (core ++ [[]]).map TrimSpace = core ++ [[]] := by
    rw [List.map_append, List.map_congr_left h2]
    simp [TrimSpace_nil]
  rw [splitLines_catLines core h1, hmap]
  cases core with
  | nil => rfl
  | cons c cs =>
    have hc : ¬ (c.isEmpty = true) := by
      intro hce
      rw [List.dropWhile_cons_of_pos hce] at h3
      have := (List.dropWhile_sublist (l := cs) List.isEmpty).length_le
      rw [h3] at this
      simp at this
    rw [List.cons_append, List.dropWhile_cons_of_neg hc, ← List.cons_append,
      List.rdropWhile_concat_pos _ _ _ (by rfl), h4]

theorem generate_isSome (exec : Invoker) (D : Nat)
    (hbound : ∀ p out, D < p.length → exec (p ++ ["--help".toList]) = (out, none) →
      subCommandNames out = [])
    (n : Nat) (base : List Str) (fuel : Nat) (hn : D + 1 - base.length ≤ n) (hf : n < fuel) :
    (commandHelp.generate exec fuel base).isSome = true := by
  induction n generalizing base fuel with
  | zero =>
    obtain ⟨f, rfl⟩ : ∃ f, fuel = f + 1 := ⟨fuel - 1, by omega⟩
    cases hexec : exec (base ++ ["--help".toList]) with
    | mk out err =>
      cases err with
      | some e => rw [generate_succ_error exec f base out e hexec]; rfl
      | none =>
        rw [generate_succ_ok exec f base out hexec, hbound base out (by omega) hexec]
        rfl
  | succ n ih =>
    obtain ⟨f, rfl⟩ : ∃ f, fuel = f + 1 := ⟨fuel - 1, by omega⟩
    cases hexec : exec (base ++ ["--help".toList]) with
    | mk out err =>
      cases err with
      | some e => rw [generate_succ_error exec f base out e hexec]; rfl
      | none =>
        rw [generate_succ_ok exec f base out hexec]
        have hsome := generateEach_isSome
          (fun subCommand => commandHelp.generate exec f (base ++ [subCommand]))
          (subCommandNames out) []
          (fun x _ => ih (base ++ [x]) f (by simp only [List.length_append,
            List.length_cons, List.length_nil]; omega) (by omega))
        cases hg : generateEach (fun subCommand => commandHelp.generate exec f
            (base ++ [subCommand])) (subCommandNames out) [] with
        | none => rw [hg] at hsome; cases hsome
        | some r => cases r <;> rfl

theorem generate_mono (exec : Invoker) (fuel : Nat) (base : List Str)
    (r : Except Str commandHelp) (h : commandHelp.generate exec fuel base = some r) :
    commandHelp.generate exec (fuel + 1) base = some r := by
  induction fuel generalizing base r with
  | zero => simp [commandHelp.generate] at h
  | succ f ih =>
    cases hexec : exec (base ++ ["--help".toList]) with
    | mk out err =>
      cases err with
      | some e =>
        rw [generate_succ_error exec f base out e hexec] at h
        rw [generate_succ_error exec (f + 1) base out e hexec]
        exact h
      | none =>
        rw [generate_succ_ok exec f base out hexec] at h
        rw [generate_succ_ok exec (f + 1) base out hexec]
        cases hg : generateEach (fun subCommand => commandHelp.generate exec f
            (base ++ [subCommand])) (subCommandNames out) [] with
        | none => rw [hg] at h; cases h
        | some x =>
          rw [generateEach_mono _
            (fun subCommand => commandHelp.generate exec (f + 1) (base ++ [subCommand]))
            _ _ x (fun y ry hy => ih (base ++ [y]) ry hy) hg]
          rw [hg] at h
          exact h

theorem generate_mono_le (exec : Invoker) (fuel fuel' : Nat) (base : List Str)
    (r : Except Str commandHelp) (hle : fuel ≤ fuel')
    (h : commandHelp.generate exec fuel base = some r) :
    commandHelp.generate exec fuel' base = some r := by
  induction hle with
  | refl => exact h
  | step _ ih => exact generate_mono exec _ base r ih

theorem sub_snoc (path : List Nat) (i : Nat) (root node : commandHelp)
    (h : root.sub (path ++ [i]) = some node) :
    ∃ parent, root.sub path = some parent ∧ parent.commands.get? i = some node := by
  induction path generalizing root with
  | nil =>
    obtain ⟨base, name, version, usage, bd, bu, bv, description, help, commands⟩ := root
    simp only [List.nil_append, commandHelp.sub] at h
    refine ⟨_, rfl, ?_⟩
    cases hget : commands.get? i with
    | none => rw [hget] at h; cases h
    | some child =>
      rw [hget] at h
      simp only [commandHelp.sub] at h
      simp only [commandHelp.commands, hget, h]
  | cons k p ih =>
    obtain ⟨base, name, version, usage, bd, bu, bv, description, help, commands⟩ := root
    simp only [List.cons_append, commandHelp.sub] at h ⊢
    cases hget : commands.get? k with
    | none => rw [hget] at h; cases h
    | some child =>
      rw [hget] at h
      exact ih child h

theorem child_base (exec : Invoker) (f : Nat) (node child : commandHelp) (i : Nat)
    (hgen : commandHelp.generate exec f node.base = some (.ok node))
    (hget : node.commands.get? i = some child) :
    ∃ n out, child.base = node.base ++ [n] ∧
      exec (node.base ++ ["--help".toList]) = (out, none) ∧ subCommandNames out ≠ [] := by
  obtain ⟨f', helpStr, commands, _, hexec, hnode, hall⟩ :=
    generate_ok_inv exec f node.base node hgen
  have hC : node.commands = commands := by rw [hnode]; rfl
  rw [hC] at hget
  obtain ⟨n, hn, hchild⟩ := forall₂_get _ _ _ hall i child hget
  obtain ⟨_, _, _, _, _, hcn, _⟩ := generate_ok_inv exec f' _ child hchild
  refine ⟨n, helpStr, by rw [hcn]; rfl, hexec, ?_⟩
  intro hnil
  rw [hnil] at hn
  simp at hn

theorem quotedInfo_eq (info : Str) :
    quotedInfo info =
      ((splitNewline (trimSuffixNewline info)).map
        (fun l => '>' :: ' ' :: l ++ ['\n'])).flatten ++ ['\n'] := by
  have hfold : ∀ (ls : List Str) (acc : Str),
      ls.foldl (fun acc line => acc ++ ['>', ' '] ++ line ++ ['\n']) acc
        = acc ++ (ls.map (fun l => '>' :: ' ' :: l ++ ['\n'])).flatten := by
    intro ls
    induction ls with
    | nil => simp
    | cons l ls ih =>
      intro acc
      rw [List.foldl_cons, ih]
      simp
  unfold quotedInfo
  cases hs : splitNewline (trimSuffixNewline info) with
  | nil => exact absurd hs (splitBy_ne_nil _ _)
  | cons l ls =>
    simp only [List.length_cons, gt_iff_lt, Nat.zero_lt_succ, if_true]
    rw [hfold]
    simp

theorem generateEach_error_inv (gen : Str → Option (Except Str commandHelp))
    (names : List Str) (acc : List commandHelp) (e : Str)
    (h : generateEach gen names acc = some (.error e)) :
    ∃ before name later, names = before ++ name :: later ∧
      (∀ x ∈ before, ∃ c, gen x = some (.ok c)) ∧ gen name = some (.error e) := by
  induction names generalizing acc with
  | nil => simp [generateEach] at h
  | cons n rest ih =>
    rw [generateEach] at h
    cases hg : gen n with
    | none => rw [hg] at h; cases h
    | some r =>
      rw [hg] at h
      cases r with
      | error e' =>
        simp only [Option.some.injEq, Except.error.injEq] at h
        subst h
        exact ⟨[], n, rest, rfl, by simp, hg⟩
      | ok c =>
        obtain ⟨before, name, later, hn, hb, hname⟩ := ih _ h
        refine ⟨n :: before, name, later, by simp [hn], ?_, hname⟩
        intro x hx
        rcases List.mem_cons.1 hx with hx | hx
        · subst hx; exact ⟨c, hg⟩
        · exact hb x hx

theorem commandHelp_sub_nil (c : commandHelp) : c.sub [] = some c := by
  cases c
  rfl

/-- A returned error is the failure of an invocation that was reached. -/
theorem error_reached (exec : Invoker) (fuel : Nat) (base : List Str) (e : Str)
    (h : commandHelp.generate exec fuel base = some (.error e)) :
    ∃ p out err, Reached exec fuel base p ∧
      exec (p ++ ["--help".toList]) = (out, some err) := by
  induction fuel generalizing base e with
  | zero => simp [commandHelp.generate] at h
  | succ f ih =>
    cases hexec : exec (base ++ ["--help".toList]) with
    | mk out err =>
      cases err with
      | some e' => exact ⟨base, out, e', Reached.here f base, hexec⟩
      | none =>
        rw [generate_succ_ok exec f base out hexec] at h
        cases hg : generateEach (fun subCommand => commandHelp.generate exec f
            (base ++ [subCommand])) (subCommandNames out) [] with
        | none => rw [hg] at h; cases h
        | some r =>
          rw [hg] at h
          cases r with
          | ok commands => cases h
          | error e' =>
            obtain ⟨before, name, later, hn, hb, hname⟩ := generateEach_error_inv _ _ _ _ hg
            obtain ⟨p, o, er, hr, hp⟩ := ih (base ++ [name]) e' hname
            exact ⟨p, o, er, Reached.child f base out before name later p hexec hn hb hr, hp⟩

/-! ## Claims -/

/-- C1: a header line `L:` whose label `L` is made of upper-case words separated by single
spaces opens the section keyed by `L` lower-cased with every word capitalised.  The lines
`body` that follow it up to the next header line (or the end of the input) are stored
under that key, each followed by a newline, after whatever the lines `pre` before the
header had already put there; when no other header line has the same key the section is
exactly `body` (and the key is absent if `body` is empty).  No header line is part of any
section body: every value of the map is made of lines of the text that are no header. -/
theorem ParseHelp_header_section (text : Str) (pre body post words : List Str)
    (hne : words ≠ []) (hupper : ∀ w ∈ words, w ≠ [] ∧ ∀ c ∈ w, isUpperAZ c = true)
    (hlines : splitLines text = pre ++ (joinWords words ++ [':']) :: (body ++ post))
    (hbody : ∀ l ∈ body, headerMatch l = none)
    (hpost : ∀ l ∈ post.head?, headerMatch l ≠ none) :
    ∃ m, ParseHelp text = some m ∧
      (body ≠ [] → ∃ later, mapGet m (joinWords (words.map capitalizeWord)) =
        some ((mapGet (parseHelpLoop pre).2 (joinWords (words.map capitalizeWord))).getD []
          ++ catLines body ++ later)) ∧
      ((∀ l ∈ pre ++ post, ∀ sm1, headerMatch l = some sm1 →
          headerKey sm1 ≠ joinWords (words.map capitalizeWord)) →
        mapGet m (joinWords (words.map capitalizeWord)) =
          if body = [] then none else some (catLines body)) ∧
      (∀ k v, mapGet m k = some v →
        ∃ ls, ls.Sublist (splitLines text) ∧ (∀ l ∈ ls, headerMatch l = none) ∧
          v = catLines ls) := by
  refine ⟨(parseHelpLoop (splitLines text)).2, rfl, ?_, ?_, ?_⟩
  all_goals
    have hm := headerMatch_joinWords words hne hupper
    have hk := headerKey_joinWords words hne hupper
    have hsplit : ∀ k, linesUnder k [] (splitLines text) = linesUnder k [] pre ++
        linesUnder k (joinWords (words.map capitalizeWord)) (body ++ post) := by
      intro k
      rw [hlines, linesUnder_append]
      simp [linesUnder, hm, hk]
    have hkey : linesUnder (joinWords (words.map capitalizeWord)) []
          (splitLines text)
        = linesUnder (joinWords (words.map capitalizeWord)) [] pre ++ (body ++
          linesUnder (joinWords (words.map capitalizeWord))
            (joinWords (words.map capitalizeWord)) post) := by
      rw [hsplit, linesUnder_append, (linesUnder_body _ body hbody).1,
        (linesUnder_body _ body hbody).2]
  · intro hb
    refine ⟨catLines (linesUnder (joinWords (words.map capitalizeWord))
      (joinWords (words.map capitalizeWord)) post), ?_⟩
    rw [parseHelpLoop_get, parseHelpLoop_getD, hkey]
    have : linesUnder (joinWords (words.map capitalizeWord)) [] pre ++ (body ++
          linesUnder (joinWords (words.map capitalizeWord))
            (joinWords (words.map capitalizeWord)) post) ≠ [] := by
      simp [hb]
    rw [if_neg this]
    simp [catLines_append]
  · intro hother
    have hkne : ([] : Str) ≠ joinWords (words.map capitalizeWord) := by
      cases words with
      | nil => exact absurd rfl hne
      | cons w ws =>
        obtain ⟨hwne, hw⟩ := hupper w (by simp)
        cases w with
        | nil => exact absurd rfl hwne
        | cons x xs =>
          rw [List.map_cons, capitalizeWord_upper x xs (hw x (by simp))]
          cases ws <;> simp [joinWords]
    have hpre : linesUnder (joinWords (words.map capitalizeWord)) [] pre = [] :=
      linesUnder_no_key _ _ _ hkne (fun l hl => hother l (by simp [hl]))
    have hpo : linesUnder (joinWords (words.map capitalizeWord))
        (joinWords (words.map capitalizeWord)) post = [] := by
      cases post with
      | nil => rfl
      | cons h t =>
        cases hh : headerMatch h with
        | none => exact absurd hh (hpost h (by simp))
        | some sm1 =>
          simp only [linesUnder, hh]
          exact linesUnder_no_key _ _ _ (hother h (by simp) sm1 hh)
            (fun l hl => hother l (by simp [hl]))
    rw [parseHelpLoop_get, hkey, hpre, hpo]
    simp
  · intro k v hv
    rw [parseHelpLoop_get] at hv
    by_cases he : linesUnder k [] (splitLines text) = []
    · simp [he] at hv
    · simp only [he, if_false, Option.some.injEq] at hv
      exact ⟨_, (linesUnder_sublist k [] _).1, (linesUnder_sublist k [] _).2, hv.symm⟩

/-- C1, at a concrete help text: the two lines after `GLOBAL OPTIONS:` are the section
`Global Options`. -/
theorem ParseHelp_header_section_witness :
    ∃ m, ParseHelp "usage\nGLOBAL OPTIONS:\n  --x\n  --y\nNAME:\nfoo".toList = some m ∧
      mapGet m "Global Options".toList = some "  --x\n  --y\n".toList := by
  obtain ⟨m, h1, _, h2, _⟩ := ParseHelp_header_section
    "usage\nGLOBAL OPTIONS:\n  --x\n  --y\nNAME:\nfoo".toList
    ["usage".toList] ["  --x".toList, "  --y".toList] ["NAME:".toList, "foo".toList]
    ["GLOBAL".toList, "OPTIONS".toList]
    (by decide) (by decide) (by decide) (by decide) (by decide)
  exact ⟨m, h1, h2 (by decide)⟩

/-- C2: for a text none of whose lines is a header line, the map of `ParseHelp` has the
single key `""`, and its value is made of all the lines of the text, in order, each
followed by a newline. -/
theorem ParseHelp_no_header (text : Str)
    (h : ∀ l ∈ splitLines text, headerMatch l = none) :
    ParseHelp text = some [([], catLines (splitLines text))] := by
  unfold ParseHelp parseHelpLoop
  cases hs : splitLines text with
  | nil => exact absurd hs (splitBy_ne_nil _ _)
  | cons l ls =>
    rw [hs] at h
    have hl := h l (by simp)
    rw [List.foldl_cons]
    have : parseHelpStep ([], []) l = ([], [([], l ++ ['\n'])]) := by
      simp [parseHelpStep, hl, mapGet, mapSet]
    rw [this, foldl_parseHelpStep_preamble ls _ (fun x hx => h x (by simp [hx])), catLines_cons]

/-- C2, at a concrete text: two lines and a final newline (the empty last piece counts as
a line). -/
theorem ParseHelp_no_header_witness :
    ParseHelp "some text\r  Name: x\n".toList
      = some [([], "some text\n  Name: x\n\n".toList)] :=
  ParseHelp_no_header "some text\r  Name: x\n".toList (by decide)

/-- C3, as stated, fails: for the text `x`, which has no header line, the concatenation
of the sections is `x` followed by a newline; and when the header `A:` comes back after
`B:`, the lines of both `A` sections come before the line of `B`. -/
theorem concatSections_counterexample :
    concatSections (ParseHelp "x".toList) (sectionOrder "x".toList)
        ≠ removeHeaderLines "x".toList ∧
      concatSections (ParseHelp "A:\nx\nB:\ny\nA:\nz\n".toList)
          (sectionOrder "A:\nx\nB:\ny\nA:\nz\n".toList) = "x\nz\n\ny\n".toList ∧
      removeHeaderLines "A:\nx\nB:\ny\nA:\nz\n".toList = "x\ny\nz\n".toList := by
  decide

/-- C3, amended: when no two header lines of the text yield the same section key, the
section bodies of `ParseHelp`, concatenated in the order in which their headers are first
encountered (the preamble first), are the lines of the text that are no header line, in
order, each followed by a newline. -/
theorem concatSections_eq_lines (text : Str)
    (h : (headerKeys (splitLines text)).Nodup) :
    concatSections (ParseHelp text) (sectionOrder text)
      = catLines ((splitLines text).filter (fun l => (headerMatch l).isNone)) := by
  have hnd : (([] : Str) :: headerKeys (splitLines text)).Nodup :=
    List.nodup_cons.2 ⟨nil_not_mem_headerKeys _, h⟩
  unfold concatSections ParseHelp sectionOrder
  rw [firstOccurrences_nodup _ hnd]
  simp only [parseHelpLoop_getD]
  exact sections_in_order (splitLines text) [] hnd

/-- C3 amended, at a concrete text with a preamble and two sections. -/
theorem concatSections_eq_lines_witness :
    concatSections (ParseHelp "intro\nNAME:\n  app\rUSAGE:\n  app [x]".toList)
        (sectionOrder "intro\nNAME:\n  app\rUSAGE:\n  app [x]".toList)
      = "intro\n  app\n  app [x]\n".toList :=
  concatSections_eq_lines "intro\nNAME:\n  app\rUSAGE:\n  app [x]".toList (by decide)

/-- C4, as stated, fails: the line `  NAME:` is `NAME:` once trimmed, and `NAME:` is a
header, but with its leading white space the line is no header: it stays in the
preamble together with the line after it. -/
theorem header_leading_space_counterexample :
    TrimSpace "  NAME:".toList = "NAME:".toList ∧
      headerMatch "NAME:".toList = some "NAME".toList ∧
      headerMatch "  NAME:".toList = none ∧
      ParseHelp "  NAME:\nfoo".toList = some [([], "  NAME:\nfoo\n".toList)] := by
  decide

/-- C4, amended: `ParseHelp` treats a line as a section header exactly when the line
starts with an upper-case letter, goes on with upper-case letters and white space
(`\s`) up to a colon, and has nothing but white space after the colon.  Such a line
(`NAME:  `, with trailing white space) starts a new section: the active key becomes the
key of its label and the map is left as it was.  Any other line, such as one with
leading white space (`  NAME:`), with a mixed-case label (`Global Options:`) or with
text after the colon (`NAME: foo`), starts no section and is appended to the active
one. -/
theorem header_line_iff (pre : List Str) (line : Str) :
    (∀ sm1, headerMatch line = some sm1 ↔
      ∃ c cs ws, sm1 = c :: cs ∧ line = sm1 ++ ':' :: ws ∧ isUpperAZ c = true ∧
        (∀ x ∈ cs, isLabelChar x = true) ∧ ∀ x ∈ ws, isSpaceRe x = true) ∧
    (∀ sm1, headerMatch line = some sm1 →
      parseHelpLoop (pre ++ [line]) = (headerKey sm1, (parseHelpLoop pre).2)) ∧
    (headerMatch line = none →
      (parseHelpLoop (pre ++ [line])).1 = (parseHelpLoop pre).1 ∧
      ∀ k, mapGet (parseHelpLoop (pre ++ [line])).2 k =
        if (parseHelpLoop pre).1 = k then
          some ((mapGet (parseHelpLoop pre).2 k).getD [] ++ line ++ ['\n'])
        else mapGet (parseHelpLoop pre).2 k) ∧
    headerMatch "NAME:  ".toList = some "NAME".toList ∧
    headerMatch "  NAME:".toList = none ∧
    headerMatch "Global Options:".toList = none ∧
    headerMatch "NAME: foo".toList = none := by
  refine ⟨fun sm1 => headerMatch_some_iff line sm1, ?_, ?_, by decide, by decide, by decide,
    by decide⟩
  · intro sm1 h
    simp only [parseHelpLoop, List.foldl_append, List.foldl_cons, List.foldl_nil]
    exact parseHelpStep_header _ _ _ h
  · intro h
    simp only [parseHelpLoop, List.foldl_append, List.foldl_cons, List.foldl_nil]
    refine ⟨parseHelpStep_line_fst _ _ h, fun k => ?_⟩
    rw [parseHelpStep_line_get _ _ h]
    by_cases hk : (List.foldl parseHelpStep ([], []) pre).1 = k
    · subst hk; simp
    · simp [hk]

/-- C4 amended, at concrete lines: after the preamble line `intro`, the header `NAME:  `
switches the active key to `Name`, and the indented `  NAME:` is appended to the
preamble. -/
theorem header_line_iff_witness :
    parseHelpLoop ["intro".toList, "NAME:  ".toList]
        = ("Name".toList, [([], "intro\n".toList)]) ∧
      mapGet (parseHelpLoop ["intro".toList, "  NAME:".toList]).2 []
        = some "intro\n  NAME:\n".toList := by
  refine ⟨?_, ?_⟩
  · have h := (header_line_iff ["intro".toList] "NAME:  ".toList).2.1 "NAME".toList (by decide)
    rw [show ["intro".toList, "NAME:  ".toList] = ["intro".toList] ++ ["NAME:  ".toList] from rfl,
      h]
    decide
  · have h := ((header_line_iff ["intro".toList] "  NAME:".toList).2.2.1 (by decide)).2 []
    rw [show ["intro".toList, "  NAME:".toList] = ["intro".toList] ++ ["  NAME:".toList]
      from rfl, h]
    decide

/-- C5, as stated, fails for the name `-` after a leading space: the first ` - ` of the
line ` - - foo` is the one made of the leading space and the name, so the line is read
as an empty name and skipped. -/
theorem ParseName_dash_counterexample :
    ParseName (List.replicate 1 ' ' ++ ['-'] ++ [' ', '-', ' '] ++ "foo".toList ++ ['\n'])
        = some ([], []) ∧
      ParseName (List.replicate 1 ' ' ++ ['-'] ++ [' ', '-', ' '] ++ "foo".toList ++ ['\n'])
        ≠ some (['-'], TrimSpace "foo".toList) := by
  decide

/-- C5, amended: for a non-empty name `n` without white space, a usage `u` without line
terminator and `k` leading spaces, `ParseName` of the line `n - u` returns the name `n`
and the trimmed usage, unless `n` is the single character `-` and `k > 0`; and
`ParseName` of the line `n` alone returns the name `n` and the empty usage. -/
theorem ParseName_line (k : Nat) (n u : Str) (hne : n ≠ [])
    (hn : ∀ c ∈ n, isSpace c = false) (hu : ∀ c ∈ u, isLineTerm c = false) :
    (¬ (n = ['-'] ∧ 0 < k) →
      ParseName (List.replicate k ' ' ++ n ++ [' ', '-', ' '] ++ u ++ ['\n'])
        = some (n, TrimSpace u)) ∧
    ParseName (List.replicate k ' ' ++ n ++ ['\n']) = some (n, []) := by
  have hw : ∀ c ∈ List.replicate k ' ', isSpace c = true := by
    intro c hc
    rw [(List.mem_replicate.1 hc).2]
    decide
  have hwt : ∀ c ∈ List.replicate k ' ', isLineTerm c = false := by
    intro c hc
    rw [(List.mem_replicate.1 hc).2]
    decide
  have htrim := TrimSpace_padded (List.replicate k ' ') n hw hne hn
  constructor
  · intro hdash
    have hline : ∀ c ∈ List.replicate k ' ' ++ n ++ [' ', '-', ' '] ++ u,
        isLineTerm c = false := by
      intro c hc
      simp only [List.mem_append] at hc
      rcases hc with ((hc | hc) | hc) | hc
      · exact hwt c hc
      · exact not_lineTerm_of_not_space c (hn c hc)
      · simp only [List.mem_cons, List.mem_singleton, List.not_mem_nil, or_false] at hc
        rcases hc with hc | hc | hc <;> subst hc <;> decide
      · exact hu c hc
    unfold ParseName
    rw [splitLines_single_line _ hline]
    simp only [parseNameLoop, SplitN2, cutFirst_padded_name k n u hn hdash, htrim]
    simp [hne]
  · have hline : ∀ c ∈ List.replicate k ' ' ++ n, isLineTerm c = false := by
      intro c hc
      simp only [List.mem_append] at hc
      rcases hc with hc | hc
      · exact hwt c hc
      · exact not_lineTerm_of_not_space c (hn c hc)
    unfold ParseName
    rw [splitLines_single_line _ hline]
    simp only [parseNameLoop, SplitN2, cutFirst_padded_none k n hn, htrim]
    simp [hne]

/-- C5 amended, at the two examples of the specification. -/
theorem ParseName_line_witness :
    ParseName "foo - does a thing\n".toList = some ("foo".toList, "does a thing".toList) ∧
      ParseName "foo\n".toList = some ("foo".toList, []) :=
  ⟨(ParseName_line 0 "foo".toList "does a thing".toList (by decide) (by decide)
      (by decide)).1 (by decide),
    (ParseName_line 0 "foo".toList "does a thing".toList (by decide) (by decide)
      (by decide)).2⟩

/-- C6: when every line of a `Commands` section is made of leading white space, a token
that starts with a letter and contains no white space or comma, and a white space
character or comma followed by any text (the empty piece after a final line terminator
apart), `ParseCommands` returns those tokens except `help`, in the order of the lines and
with repetitions; and `help` is in the result for no input at all. -/
theorem ParseCommands_tokens (text : Str) (ls : List CommandLine)
    (hwf : ∀ l ∈ ls, l.wellFormed = true)
    (hlines : splitLines text = ls.map CommandLine.text ∨
      splitLines text = ls.map CommandLine.text ++ [[]]) :
    ParseCommands text
        = (ls.map CommandLine.token).filter (fun t => t ≠ ['h', 'e', 'l', 'p']) ∧
      ∀ input, ['h', 'e', 'l', 'p'] ∉ ParseCommands input := by
  constructor
  · rw [ParseCommands_eq]
    rcases hlines with h | h
    · rw [h, filterMap_commandMatch_wellFormed ls hwf]
    · rw [h, List.filterMap_append, filterMap_commandMatch_wellFormed ls hwf]
      simp [commandMatch]
  · intro input hmem
    rw [ParseCommands_eq, List.mem_filter] at hmem
    simpa using hmem.2

/-- C6, at the example of the specification. -/
theorem ParseCommands_tokens_witness :
    ParseCommands
        "   build, b      builds the project\n   help            shows help\n".toList
      = ["build".toList] :=
  (ParseCommands_tokens
    "   build, b      builds the project\n   help            shows help\n".toList
    [⟨"   ".toList, "build".toList, ',', " b      builds the project".toList⟩,
     ⟨"   ".toList, "help".toList, ' ', "           shows help".toList⟩]
    (by decide) (Or.inr (by decide))).1

/-- C7, as stated, fails: the blank line between the two content lines is kept, so the
result is not the two lines separated by a single newline. -/
theorem ParseDescription_example_counterexample :
    ParseDescription "  line one  \n\n  line two  \n".toList ≠ "line one\nline two\n".toList := by
  decide

/-- C7, amended: the two padded content lines separated by a blank line come back as the
two trimmed lines, still separated by the blank line, and ended by one newline. -/
theorem ParseDescription_example :
    ParseDescription "  line one  \n\n  line two  \n".toList
      = "line one\n\nline two\n".toList := by
  decide

/-- C8: `ParseDescription` returns the lines of its input each trimmed of surrounding
white space, without the leading and the trailing blank lines and with all the lines in
between in order, joined by newlines and ended by exactly one newline (the result never
ends in two newlines); the result is empty exactly when every line of the input is
blank. -/
theorem ParseDescription_lines (s : Str) :
    ParseDescription s =
        (if descriptionLines s = [] then []
          else ['\n'].intercalate (descriptionLines s) ++ ['\n']) ∧
      descriptionLines s =
        (((splitLines s).map TrimSpace).dropWhile List.isEmpty).rdropWhile List.isEmpty ∧
      (ParseDescription s = [] ↔ ∀ l ∈ splitLines s, TrimSpace l = []) ∧
      ¬ (['\n', '\n'] <:+ ParseDescription s) := by
  refine ⟨?_, rfl, ?_, ?_⟩
  · rw [ParseDescription_eq]
    by_cases h : descriptionLines s = []
    · simp [h, catLines]
    · simp only [h, if_false]
      exact catLines_intercalate _ h
  · rw [ParseDescription_eq, catLines_eq_nil, descriptionLines_eq_nil]
  · rw [ParseDescription_eq]
    rintro ⟨pre, hpre⟩
    rcases List.eq_nil_or_concat (descriptionLines s) with hcore | ⟨init, t, hcore⟩
    · rw [hcore] at hpre
      simp [catLines] at hpre
    · rw [List.concat_eq_append] at hcore
      obtain ⟨t', c, ht, hc⟩ := descriptionLines_getLast s t (by rw [hcore]; simp)
      have hcat : catLines (init ++ [t]) = (catLines init ++ t' ++ [c]) ++ ['\n'] := by
        simp [catLines_append, catLines_cons, catLines, ht]
      rw [hcore, hcat, show pre ++ ['\n', '\n'] = (pre ++ ['\n']) ++ ['\n'] from by simp] at hpre
      have h1 := List.append_inj_left' hpre rfl
      have h2 := List.append_inj_right' h1 rfl
      have h3 : c = '\n' := by simpa using h2.symm
      rw [h3] at hc
      revert hc
      decide

/-- C9: on the nil map, and on every map without the section an accessor reads, `Name`,
`Usage`, `Version` and `Description` return the empty string and `Commands` the empty
list; and no accessor fails (panics) on any map. -/
theorem accessors_absent :
    (Help.Name none = some [] ∧ Help.Usage none = some [] ∧ Help.Version none = some [] ∧
      Help.Description none = some [] ∧ Help.Commands none = some []) ∧
    (∀ m : HelpMap, mapGet m ['N', 'a', 'm', 'e'] = none →
      Help.Name (some m) = some [] ∧ Help.Usage (some m) = some []) ∧
    (∀ m : HelpMap, mapGet m ['V', 'e', 'r', 's', 'i', 'o', 'n'] = none →
      Help.Version (some m) = some []) ∧
    (∀ m : HelpMap, mapGet m ['D', 'e', 's', 'c', 'r', 'i', 'p', 't', 'i', 'o', 'n'] = none →
      Help.Description (some m) = some []) ∧
    (∀ m : HelpMap, mapGet m ['C', 'o', 'm', 'm', 'a', 'n', 'd', 's'] = none →
      Help.Commands (some m) = some []) ∧
    (∀ h : Help, (Help.Name h).isSome = true ∧ (Help.Usage h).isSome = true ∧
      (Help.Version h).isSome = true ∧ (Help.Description h).isSome = true ∧
      (Help.Commands h).isSome = true) := by
  refine ⟨⟨rfl, rfl, rfl, rfl, rfl⟩, ?_, ?_, ?_, ?_, ?_⟩
  · intro m h
    simp [Help.Name, Help.Usage, h]
  · intro m h
    simp [Help.Version, h]
  · intro m h
    simp [Help.Description, h]
  · intro m h
    simp [Help.Commands, h]
  · intro h
    have hpn : ∀ s, ∃ r, ParseName s = some r := by
      intro s
      exact Option.isSome_iff_exists.1 (parseNameLoop_isSome _ _ _)
    cases h with
    | none => exact ⟨rfl, rfl, rfl, rfl, rfl⟩
    | some m =>
      refine ⟨?_, ?_, ?_, ?_, ?_⟩
      · cases hg : mapGet m ['N', 'a', 'm', 'e'] with
        | none => simp [Help.Name, hg]
        | some help =>
          obtain ⟨r, hr⟩ := hpn help
          simp [Help.Name, hg, hr]
      · cases hg : mapGet m ['N', 'a', 'm', 'e'] with
        | none => simp [Help.Usage, hg]
        | some help =>
          obtain ⟨r, hr⟩ := hpn help
          simp [Help.Usage, hg, hr]
      · cases hg : mapGet m ['V', 'e', 'r', 's', 'i', 'o', 'n'] <;> simp [Help.Version, hg]
      · cases hg : mapGet m ['D', 'e', 's', 'c', 'r', 'i', 'p', 't', 'i', 'o', 'n'] <;>
          simp [Help.Description, hg]
      · cases hg : mapGet m ['C', 'o', 'm', 'm', 'a', 'n', 'd', 's'] <;>
          simp [Help.Commands, hg]

/-- C9, at a concrete map: the help text has a `Usage` section only, so the name and the
usage read from the absent `Name` section are empty. -/
theorem accessors_absent_witness :
    Help.Name (some [("Usage".toList, "  app [x]\n".toList)]) = some [] ∧
      Help.Usage (some [("Usage".toList, "  app [x]\n".toList)]) = some [] :=
  accessors_absent.2.1 [("Usage".toList, "  app [x]\n".toList)] (by decide)

/-- C10: in the output of `GenerateMarkdown`, the rendering of the node reached by a path
of `d` child indices (the root for the empty path) is found at the start of a line (at
the very start for the root) and begins with `d+1` characters `#`, one space, the node's
name, or the text `COMMAND` when the name is empty, and one blank line: the next
character is the `>` of the info block. -/
theorem GenerateMarkdown_heading (root node : Command) (path : List Nat)
    (h : root.sub path = some node) :
    ∃ pre post tail,
      GenerateMarkdown root = pre ++ generate node path.length ++ post ∧
      generate node path.length =
        List.replicate (path.length + 1) '#' ++
          ' ' :: (if node.Name = [] then ['C', 'O', 'M', 'M', 'A', 'N', 'D'] else node.Name) ++
          '\n' :: '\n' :: '>' :: tail ∧
      (path = [] → pre = []) ∧ (path ≠ [] → ∃ q, pre = q ++ ['\n']) := by
  obtain ⟨pre, post, hgen, hnil, hcons⟩ := generate_sub path root node 0 h
  obtain ⟨tail, htail⟩ := generate_heading node path.length
  rw [Nat.zero_add] at hgen
  unfold headingName at htail
  exact ⟨pre, post, tail, hgen, htail, hnil, hcons⟩

/-- C10, at a concrete tree: the root `app` is rendered first, under one `#`, and its
child without a name is rendered at the start of a line under `## COMMAND`. -/
theorem GenerateMarkdown_heading_witness :
    (∃ post tail,
      GenerateMarkdown (.mk "app".toList [] [] "h".toList [.mk [] [] [] [] []])
        = "# app\n\n>".toList ++ tail ++ post) ∧
    (∃ q post tail,
      GenerateMarkdown (.mk "app".toList [] [] "h".toList [.mk [] [] [] [] []])
        = q ++ "\n## COMMAND\n\n>".toList ++ tail ++ post) := by
  constructor
  · obtain ⟨pre, post, tail, h1, h2, h3, _⟩ := GenerateMarkdown_heading
      (.mk "app".toList [] [] "h".toList [.mk [] [] [] [] []])
      (.mk "app".toList [] [] "h".toList [.mk [] [] [] [] []]) [] rfl
    refine ⟨post, tail, ?_⟩
    rw [h1, h3 rfl, h2]
    rfl
  · obtain ⟨pre, post, tail, h1, h2, _, h4⟩ := GenerateMarkdown_heading
      (.mk "app".toList [] [] "h".toList [.mk [] [] [] [] []])
      (.mk [] [] [] [] []) [0] rfl
    obtain ⟨q, hq⟩ := h4 (by simp)
    refine ⟨q, post, tail, ?_⟩
    rw [h1, hq, h2]
    simp [Command.Name]

/-- C11: the code at the node with empty name, info, description and help and without
children.  The info block is not left out: `strings.Split` of the empty info is the one
empty line, which is quoted as `> ` and followed by a blank line. -/
theorem GenerateMarkdown_empty_info :
    quotedInfo [] = "> \n\n".toList ∧
      GenerateMarkdown (.mk [] [] [] [] []) = "# COMMAND\n\n> \n\n```\n\n```\n".toList ∧
      GenerateMarkdown (.mk [] [] [] [] []) ≠ "# COMMAND\n\n```\n\n```\n".toList := by
  decide

/-- C12, as stated, fails: for the description `d` the output has the description, one
newline and the fence; `d` is not followed by a blank line. -/
theorem GenerateMarkdown_description_counterexample :
    GenerateMarkdown (.mk "a".toList "i".toList "d".toList "h".toList [])
        = "# a\n\n> i\n\nd\n```\nh\n```\n".toList ∧
      ¬ ("d\n\n```\n".toList <:+:
        GenerateMarkdown (.mk "a".toList "i".toList "d".toList "h".toList [])) := by
  decide

/-- C12, amended: in the output of `GenerateMarkdown`, the section of every node has,
between the info block and the opening fence of the help block, the description followed
by exactly one newline when the description is not empty, and nothing when it is
empty. -/
theorem GenerateMarkdown_description (root node : Command) (path : List Nat)
    (h : root.sub path = some node) :
    ∃ pre post,
      GenerateMarkdown root =
        pre ++ (List.replicate (path.length + 1) '#' ++ ' ' :: headingName node.Name ++
          ['\n', '\n'] ++ quotedInfo node.Info ++
          (if node.Description = [] then [] else node.Description ++ ['\n']) ++
          ['`', '`', '`', '\n'] ++ node.Help ++ ['\n', '`', '`', '`', '\n']) ++ post := by
  obtain ⟨pre, post, hgen, _, _⟩ := generate_sub path root node 0 h
  rw [Nat.zero_add] at hgen
  obtain ⟨name, info, description, help, commands⟩ := node
  refine ⟨pre, generateSubs commands path.length ++ post, ?_⟩
  unfold GenerateMarkdown
  rw [hgen, generate, sectionBody, paddedDescription]
  by_cases hd : description = []
  · simp [Command.Name, Command.Info, Command.Description, Command.Help, hd]
  · simp [Command.Name, Command.Info, Command.Description, Command.Help, hd]

/-- C12 amended, at a concrete node whose description ends with a newline, as the results
of `ParseDescription` do: there the newline that is added makes a blank line. -/
theorem GenerateMarkdown_description_witness :
    ∃ pre post,
      GenerateMarkdown (.mk "a".toList "i".toList "d\n".toList "h".toList [])
        = pre ++ "# a\n\n> i\n\nd\n\n```\nh\n```\n".toList ++ post := by
  obtain ⟨pre, post, h⟩ := GenerateMarkdown_description
    (.mk "a".toList "i".toList "d\n".toList "h".toList [])
    (.mk "a".toList "i".toList "d\n".toList "h".toList []) [] rfl
  exact ⟨pre, post, h⟩

/-- C13: the rendering of a node at depth `d` is its own section followed, for each
child in list order, by a newline and the rendering of the child at depth `d+1`.  The
section is the heading (`d+1` characters `#`, a space, the name or `COMMAND`, a blank
line), the info lines each quoted with `> ` and followed by a blank line, the description
with a newline when it is not empty, and the help text between two fence lines; it is
what the node renders to without children.  So the rendering of a child comes after the
heading and the whole section of its parent, before the rendering of every later child
of the same parent, and, the parent being rendered whole before its own later siblings,
before the rendering of every later sibling of the parent. -/
theorem generate_children (depth : Nat) :
    (∀ (name info description help : Str) (commands : List Command),
      generate (.mk name info description help commands) depth
        = List.replicate (depth + 1) '#' ++
          ' ' :: (if name = [] then ['C', 'O', 'M', 'M', 'A', 'N', 'D'] else name) ++
          ['\n', '\n'] ++
          (((splitNewline (trimSuffixNewline info)).map
            (fun l => '>' :: ' ' :: l ++ ['\n'])).flatten ++ ['\n']) ++
          (if description = [] then [] else description ++ ['\n']) ++
          ['`', '`', '`', '\n'] ++ help ++ ['\n', '`', '`', '`', '\n'] ++
          (commands.map (fun c => '\n' :: generate c (depth + 1))).flatten) ∧
    (∀ (name info description help : Str) (before between later : List Command)
        (child sibling : Command),
      generate (.mk name info description help
          (before ++ child :: between ++ sibling :: later)) depth
        = generate (.mk name info description help []) depth ++
          (before.map (fun c => '\n' :: generate c (depth + 1))).flatten ++
          '\n' :: generate child (depth + 1) ++
          (between.map (fun c => '\n' :: generate c (depth + 1))).flatten ++
          '\n' :: generate sibling (depth + 1) ++
          (later.map (fun c => '\n' :: generate c (depth + 1))).flatten) ∧
    (∀ (name info description help pname pinfo pdescription phelp : Str)
        (before between later earlier younger : List Command) (child uncle : Command),
      generate (.mk name info description help
          (before ++ (.mk pname pinfo pdescription phelp (earlier ++ child :: younger)) ::
            between ++ uncle :: later)) depth
        = generate (.mk name info description help []) depth ++
          (before.map (fun c => '\n' :: generate c (depth + 1))).flatten ++
          '\n' :: (generate (.mk pname pinfo pdescription phelp []) (depth + 1) ++
            (earlier.map (fun c => '\n' :: generate c (depth + 1 + 1))).flatten ++
            '\n' :: generate child (depth + 1 + 1) ++
            (younger.map (fun c => '\n' :: generate c (depth + 1 + 1))).flatten) ++
          (between.map (fun c => '\n' :: generate c (depth + 1))).flatten ++
          '\n' :: generate uncle (depth + 1) ++
          (later.map (fun c => '\n' :: generate c (depth + 1))).flatten) := by
  have hleaf : ∀ (name info description help : Str) (d : Nat),
      generate (.mk name info description help []) d
        = sectionBody name info description help d := by
    intro name info description help d
    rw [generate, generateSubs]
    simp
  refine ⟨?_, ?_, ?_⟩
  · intro name info description help commands
    rw [generate, generateSubs_eq]
    unfold sectionBody paddedDescription headingName
    rw [quotedInfo_eq]
    by_cases hd : description = []
    · simp [hd]
    · simp [hd]
  · intro name info description help before between later child sibling
    rw [hleaf, generate, generateSubs_eq]
    simp
  · intro name info description help pname pinfo pdescription phelp before between later
      earlier younger child uncle
    rw [hleaf, hleaf, generate, generateSubs_eq]
    simp only [List.map_append, List.map_cons, List.flatten_append, List.flatten_cons]
    rw [generate, generateSubs_eq]
    simp

set_option maxRecDepth 100000 in
/-- C14: with an invoker that answers `app --help` and `app run --help` with the two
help texts of the scenario, `NewCommand("app")` succeeds (with any fuel of at least 2)
with a root named `app` whose only child is named `run` and has no child; the markdown
of the root has exactly the two heading lines `# app` and `## run`, in this order, and
each section holds the help text of its node between two fence lines. -/
theorem NewCommand_app_run (exec : Invoker) (fuel : Nat)
    (hroot : exec ["app".toList, "--help".toList] =
      ("NAME:\n   app - demo\n\nCOMMANDS:\n   run\t\truns it\n   help\t\tshow help\n".toList,
        none))
    (hrun : exec ["app".toList, "run".toList, "--help".toList] =
      ("NAME:\n   run - executes\n".toList, none)) :
    ∃ root child, NewCommand exec (fuel + 2) "app".toList [] = some (.ok root) ∧
      root.Name = "app".toList ∧ root.commands = [child] ∧
      child.Name = "run".toList ∧ child.commands = [] ∧
      GenerateMarkdown root.toCommand =
        ("# app\n\n> demo\n> \n> name: app\n\n```\n" ++
          "NAME:\n   app - demo\n\nCOMMANDS:\n   run\t\truns it\n   help\t\tshow help\n" ++
          "\n```\n\n## run\n\n> executes\n> \n> name: run\n\n```\n" ++
          "NAME:\n   run - executes\n" ++ "\n```\n").toList ∧
      (splitNewline (GenerateMarkdown root.toCommand)).filter (fun l => l.head? = some '#')
        = ["# app".toList, "## run".toList] := by
  have hchild : commandHelp.generate exec (fuel + 1) (["app".toList] ++ ["run".toList])
      = some (.ok (filledIn ["app".toList, "run".toList]
          "NAME:\n   run - executes\n".toList [])) := by
    rw [generate_succ_ok exec fuel _ _ hrun]
    have : subCommandNames "NAME:\n   run - executes\n".toList = [] := by decide
    rw [this]
    rfl
  have hgen : commandHelp.generate exec (fuel + 2) ["app".toList]
      = some (.ok (filledIn ["app".toList]
          "NAME:\n   app - demo\n\nCOMMANDS:\n   run\t\truns it\n   help\t\tshow help\n".toList
          [filledIn ["app".toList, "run".toList] "NAME:\n   run - executes\n".toList []])) := by
    rw [generate_succ_ok exec (fuel + 1) _ _ hroot]
    have : subCommandNames
        "NAME:\n   app - demo\n\nCOMMANDS:\n   run\t\truns it\n   help\t\tshow help\n".toList
        = ["run".toList] := by decide
    rw [this]
    simp only [generateEach, hchild]
    rfl
  refine ⟨filledIn ["app".toList]
      "NAME:\n   app - demo\n\nCOMMANDS:\n   run\t\truns it\n   help\t\tshow help\n".toList
      [filledIn ["app".toList, "run".toList] "NAME:\n   run - executes\n".toList []],
    filledIn ["app".toList, "run".toList] "NAME:\n   run - executes\n".toList [],
    ?_, ?_, rfl, ?_, rfl, ?_, ?_⟩
  · unfold NewCommand
    rw [hgen]
  · decide
  · decide
  · decide
  · decide

/-- C14, with the invoker `appInvoker`, for which every other invocation fails. -/
theorem NewCommand_app_run_witness :
    ∃ root child, NewCommand appInvoker 2 "app".toList [] = some (.ok root) ∧
      root.Name = "app".toList ∧ root.commands = [child] ∧
      child.Name = "run".toList ∧ child.commands = [] ∧
      (splitNewline (GenerateMarkdown root.toCommand)).filter (fun l => l.head? = some '#')
        = ["# app".toList, "## run".toList] := by
  obtain ⟨root, child, h1, h2, h3, h4, h5, _, h7⟩ :=
    NewCommand_app_run appInvoker 0 (by decide) (by decide)
  exact ⟨root, child, h1, h2, h3, h4, h5, h7⟩

/-- C15: if the invocation for a path reached during the construction fails, whatever
the depth and the nodes built before, `NewCommand` returns the error of that invocation
(and so no command); and when `NewCommand` returns a command, the invocation of every
node of the tree has succeeded. -/
theorem NewCommand_no_partial_tree (exec : Invoker) (fuel : Nat) (command : Str)
    (args : List Str) :
    (∀ p out err, Reached exec fuel (command :: args) p →
      exec (p ++ ["--help".toList]) = (out, some err) →
      NewCommand exec fuel command args =
        some (.error ("urfave.NewCommand generate error: ".toList ++
          ("docgen.GetCommandOutput exec error for args (".toList ++
            joinArgs (p ++ ["--help".toList]) ++ "): ".toList ++ err)))) ∧
    (∀ root, NewCommand exec fuel command args = some (.ok root) →
      ∀ path node, root.sub path = some node →
        (exec (node.base ++ ["--help".toList])).2 = none) := by
  constructor
  · intro p out err hr h
    unfold NewCommand
    rw [reached_error exec fuel _ p out err hr h]
  · intro root h path node hsub
    obtain ⟨f, hgen, _⟩ := sub_generated exec path fuel _ root node
      (NewCommand_ok exec fuel command args root h) hsub
    obtain ⟨_, helpStr, _, _, hexec, _, _⟩ := generate_ok_inv exec f node.base node hgen
    rw [hexec]

/-- C15, at a failure below the root: `app run` has been built when `app stop --help`
fails, and `NewCommand` returns that error. -/
theorem NewCommand_no_partial_tree_witness :
    NewCommand stopInvoker 2 "app".toList [] =
      some (.error ("urfave.NewCommand generate error: docgen.GetCommandOutput exec error " ++
        "for args (app, stop, --help): exit status 3").toList) := by
  have h := (NewCommand_no_partial_tree stopInvoker 2 "app".toList []).1
    ["app".toList, "stop".toList] "no help".toList "exit status 3".toList
    (Reached.child 1 ["app".toList] "COMMANDS:\n   run   runs it\n   stop  stops it\n".toList
      ["run".toList] "stop".toList [] ["app".toList, "stop".toList] (by decide) (by decide)
      (by
        intro x hx
        rw [List.mem_singleton] at hx
        subst hx
        exact ⟨_, rfl⟩)
      (Reached.here 0 ["app".toList, "stop".toList]))
    (by decide)
  rw [h]
  rfl

/-- C16: when every invocation reached by the construction succeeds (and the nesting of
sub-commands is bounded by some `D` below the fuel, so that the construction ends),
`NewCommand` returns a tree.  In every returned tree the root is built from the command
and its arguments, and every node, built from its path `base`, has as help text the
output of invoking `base` followed by `--help` (at least two arguments); its children
are, in order, the nodes built from `base` followed by `n` for each name `n` that
`ParseCommands` finds in the `Commands` section of that output; `help` is none of these
names, and a name listed twice is found twice. -/
theorem NewCommand_nodes (exec : Invoker) (fuel : Nat) (command : Str) (args : List Str) :
    (∀ D, (∀ p out, D < p.length → exec (p ++ ["--help".toList]) = (out, none) →
          subCommandNames out = []) →
        D + 1 ≤ fuel →
        (∀ p, Reached exec fuel (command :: args) p →
          (exec (p ++ ["--help".toList])).2 = none) →
        ∃ root, NewCommand exec fuel command args = some (.ok root)) ∧
    (∀ root, NewCommand exec fuel command args = some (.ok root) →
      root.base = command :: args ∧
      ∀ path node, root.sub path = some node →
        exec (node.base ++ ["--help".toList]) = (node.Help, none) ∧
        2 ≤ (node.base ++ ["--help".toList]).length ∧
        (∃ f, List.Forall₂
          (fun n c => commandHelp.generate exec f (node.base ++ [n]) = some (.ok c) ∧
            c.base = node.base ++ [n])
          (subCommandNames node.Help) node.commands) ∧
        (∃ m, ParseHelp node.Help = some m ∧
          subCommandNames node.Help =
            match mapGet m "Commands".toList with
            | some section_ => ParseCommands section_
            | none => []) ∧
        "help".toList ∉ subCommandNames node.Help ∧
        subCommandNames "COMMANDS:\n   a  x\n   a  y\n".toList
          = ["a".toList, "a".toList]) := by
  constructor
  · intro D hbound hfuel hok
    have hsome := generate_isSome exec D hbound D (command :: args) fuel
      (by simp only [List.length_cons]; omega) (by omega)
    obtain ⟨g, hg⟩ := Option.isSome_iff_exists.1 hsome
    cases g with
    | error e =>
      obtain ⟨p, out, err, hr, hp⟩ := error_reached exec fuel _ e hg
      have := hok p hr
      rw [hp] at this
      cases this
    | ok root =>
      refine ⟨root, ?_⟩
      unfold NewCommand
      rw [hg]
  · intro root h
    have hroot := NewCommand_ok exec fuel command args root h
    refine ⟨?_, ?_⟩
    · obtain ⟨_, _, _, _, _, hnode, _⟩ := generate_ok_inv exec fuel _ root hroot
      rw [hnode]
      rfl
    · intro path node hsub
      obtain ⟨f, hgen, hlen⟩ := sub_generated exec path fuel _ root node hroot hsub
      obtain ⟨f', helpStr, commands, _, hexec, hnode, hall⟩ :=
        generate_ok_inv exec f node.base node hgen
      have hH : node.Help = helpStr := by rw [hnode]; rfl
      have hC : node.commands = commands := by rw [hnode]; rfl
      refine ⟨by rw [hH]; exact hexec, ?_, ⟨f', ?_⟩, ?_, help_not_mem_subCommandNames _,
        by decide⟩
      · simp only [List.length_append, List.length_cons, List.length_nil] at hlen ⊢
        omega
      · rw [hH, hC]
        refine List.Forall₂.imp ?_ hall
        intro n c hc
        refine ⟨hc, ?_⟩
        obtain ⟨_, hs, cs, _, _, hcn, _⟩ := generate_ok_inv exec f' _ c hc
        rw [hcn]
        rfl
      · refine ⟨(parseHelpLoop (splitLines node.Help)).2, rfl, ?_⟩
        rw [show "Commands".toList = ['C', 'o', 'm', 'm', 'a', 'n', 'd', 's'] from rfl]
        unfold subCommandNames ParseHelp Help.Commands
        simp only
        generalize mapGet (parseHelpLoop (splitLines node.Help)).2
          ['C', 'o', 'm', 'm', 'a', 'n', 'd', 's'] = o
        cases o <;> rfl

/-- C16, for a program whose help lists `run` twice and `help`: `NewCommand` returns a
tree whose root holds the help text of `app --help` and has exactly two children, both
built from the path `app run`. -/
theorem NewCommand_nodes_witness :
    ∃ root first second, NewCommand twiceInvoker 2 "app".toList [] = some (.ok root) ∧
      root.Help =
        "COMMANDS:\n   run   runs it\n   run   runs it again\n   help  shows help\n".toList ∧
      root.commands = [first, second] ∧
      first.base = ["app".toList, "run".toList] ∧
      second.base = ["app".toList, "run".toList] := by
  obtain ⟨root, hroot⟩ := (NewCommand_nodes twiceInvoker 2 "app".toList []).1 1
    (by
      intro p out hp hexec
      have hlen : ¬ ((p ++ ["--help".toList]).length ≤ 2) := by
        simp only [List.length_append, List.length_cons, List.length_nil]
        omega
      unfold twiceInvoker at hexec
      rw [if_neg hlen] at hexec
      have : out = "NAME:\n   run - executes\n".toList := by
        simpa using (congrArg Prod.fst hexec).symm
      rw [this]
      decide)
    (by decide)
    (by
      intro p _
      unfold twiceInvoker
      split <;> rfl)
  obtain ⟨hbase, hnodes⟩ := (NewCommand_nodes twiceInvoker 2 "app".toList []).2 root hroot
  obtain ⟨hexec, _, ⟨f, hall⟩, _, _, _⟩ := hnodes [] root (commandHelp_sub_nil root)
  rw [hbase] at hexec hall
  have hhelp : root.Help =
      "COMMANDS:\n   run   runs it\n   run   runs it again\n   help  shows help\n".toList := by
    have := congrArg Prod.fst hexec
    exact this.symm
  have hnames : subCommandNames root.Help = ["run".toList, "run".toList] := by
    rw [hhelp]
    decide
  rw [hnames] at hall
  generalize hcs : root.commands = cs at hall
  cases hall with
  | cons h1 hrest =>
    cases hrest with
    | cons h2 hnil =>
      cases hnil
      exact ⟨root, _, _, hroot, hhelp, hcs, h1.2, h2.2⟩

/-- C17, as stated, fails: in the text below the first line that is not blank is
` - usage`; split at its ` - ` it has an empty left part and the right part `usage`, but
`ParseName` skips it and takes the name and the usage from the second line. -/
theorem ParseName_first_line_counterexample :
    (splitLines " - usage\nbar - baz".toList).find? (fun l => TrimSpace l ≠ [])
        = some " - usage".toList ∧
      SplitN2 " - usage".toList [' ', '-', ' '] = [[], "usage".toList] ∧
      ParseName " - usage\nbar - baz".toList = some ("bar".toList, "baz".toList) := by
  decide

/-- C17, amended: `ParseName` takes the first line whose part before its first ` - ` (the
whole line when it has no ` - `) is not blank, and returns that part trimmed as the name
and the part after the separator trimmed as the usage, the empty usage when there is no
separator; all other lines are ignored, and with no such line both results are empty.
`Help.Name` and `Help.Usage` are the two components of this one result. -/
theorem ParseName_first_named_line (s : Str) :
    ParseName s =
        some (match (splitLines s).find? (fun l => TrimSpace (leftOfSeparator l) ≠ []) with
          | none => ([], [])
          | some l => (TrimSpace (leftOfSeparator l),
              match rightOfSeparator l with
              | some r => TrimSpace r
              | none => [])) ∧
      (∀ (m : HelpMap), mapGet m "Name".toList = some s →
        Help.Name (some m) = (ParseName s).map Prod.fst ∧
        Help.Usage (some m) = (ParseName s).map Prod.snd) := by
  constructor
  · exact parseNameLoop_eq _
  · intro m hm
    rw [show "Name".toList = ['N', 'a', 'm', 'e'] from rfl] at hm
    simp [Help.Name, Help.Usage, hm]

/-- C17 amended, at the section of the counterexample. -/
theorem ParseName_first_named_line_witness :
    Help.Name (some [("Name".toList, " - usage\nbar - baz".toList)]) = some "bar".toList ∧
      Help.Usage (some [("Name".toList, " - usage\nbar - baz".toList)])
        = some "baz".toList := by
  have h := (ParseName_first_named_line " - usage\nbar - baz".toList).2
    [("Name".toList, " - usage\nbar - baz".toList)] (by decide)
  rw [h.1, h.2]
  decide

/-- C18, as stated, fails: the token `2fa` is made of characters that are neither white
space nor comma and stands between leading white space and a space, but its line is no
match and nothing is reported. -/
theorem ParseCommands_digit_counterexample :
    commandMatch "   2fa    second factor".toList = none ∧
      ParseCommands "   2fa    second factor\n".toList = [] := by
  decide

/-- C18, amended: for every line of the section that is made of leading white space, a
token that starts with a letter of `A-Z` or `a-z` and goes on with characters that are
neither white space nor comma, and a white space character or a comma, `ParseCommands`
reports the token unless it is `help`; a line whose first character after the leading
white space is no such letter reports nothing. -/
theorem ParseCommands_reports (text : Str) (l : CommandLine)
    (hline : l.text ∈ splitLines text) (hwf : l.wellFormed = true) :
    (l.token ≠ "help".toList → l.token ∈ ParseCommands text) ∧
      (∀ indent rest c, (∀ x ∈ indent, isSpaceRe x = true) → isSpaceRe c = false →
        isAlphaAZ c = false → commandMatch (indent ++ c :: rest) = none) := by
  constructor
  · intro hne
    rw [ParseCommands_eq, List.mem_filter]
    refine ⟨?_, by simpa using hne⟩
    rw [List.mem_filterMap]
    exact ⟨l.text, hline, commandMatch_wellFormed l hwf⟩
  · intro indent rest c hind hc ha
    have hnc : ¬ (isSpaceRe c = true) := by simp [hc]
    unfold commandMatch
    rw [List.takeWhile_append_of_pos hind, List.dropWhile_append_of_pos hind,
      List.takeWhile_cons_of_neg hnc, List.dropWhile_cons_of_neg hnc, List.append_nil]
    cases indent with
    | nil => rfl
    | cons i is => simp [ha]

/-- C18 amended, at a section with the two commands `build` and `b2`. -/
theorem ParseCommands_reports_witness :
    "b2".toList ∈ ParseCommands "   build, b   builds\n   b2\tsecond\n".toList :=
  (ParseCommands_reports "   build, b   builds\n   b2\tsecond\n".toList
    ⟨"   ".toList, "b2".toList, '\t', "second".toList⟩ (by decide) (by decide)).1 (by decide)

/-- C20: `ParseDescription` is idempotent. -/
theorem ParseDescription_idempotent (s : Str) :
    ParseDescription (ParseDescription s) = ParseDescription s := by
  rw [ParseDescription_eq s, ParseDescription_eq (catLines (descriptionLines s))]
  congr 1
  have hmem : ∀ t ∈ descriptionLines s, ∃ l ∈ splitLines s, t = TrimSpace l := by
    intro t ht
    unfold descriptionLines at ht
    obtain ⟨l, hl, rfl⟩ := List.mem_map.1
      ((List.dropWhile_sublist _).subset ((List.rdropWhile_prefix _ _).subset ht))
    exact ⟨l, hl, rfl⟩
  apply descriptionLines_catLines
  · intro t ht c hc
    obtain ⟨l, hl, rfl⟩ := hmem t ht
    exact mem_splitBy_no_sep isLineTerm s l hl c (mem_TrimSpace l c hc)
  · intro t ht
    obtain ⟨l, _, rfl⟩ := hmem t ht
    exact TrimSpace_idem l
  · exact dropWhile_rdropWhile_dropWhile _ _
  · exact List.rdropWhile_idempotent _ _

/-- C19: if every successful invocation for a path of more than `D` tokens returns a help
text without sub-command names, `NewCommand` returns: with any fuel above `D` it has a
result, the same for every larger fuel.  When the result is a command, every node lies
at most `D` levels below the root, its path is the root path extended by one token per
level, and the path of each of its children is its own path followed by one more
token. -/
theorem NewCommand_terminates (exec : Invoker) (D : Nat) (command : Str) (args : List Str)
    (hbound : ∀ p out, D < p.length → exec (p ++ ["--help".toList]) = (out, none) →
      subCommandNames out = [])
    (fuel : Nat) (hfuel : D + 1 ≤ fuel) :
    ∃ r, NewCommand exec fuel command args = some r ∧
      (∀ fuel', fuel ≤ fuel' → NewCommand exec fuel' command args = some r) ∧
      (∀ root, r = .ok root → ∀ path node, root.sub path = some node →
        path.length ≤ D ∧
        node.base.length = (command :: args).length + path.length ∧
        ∀ i child, node.commands.get? i = some child →
          ∃ n, child.base = node.base ++ [n]) := by
  have hsome := generate_isSome exec D hbound D (command :: args) fuel
    (by simp only [List.length_cons]; omega) (by omega)
  obtain ⟨g, hg⟩ := Option.isSome_iff_exists.1 hsome
  have hnew : ∀ fuel', fuel ≤ fuel' → NewCommand exec fuel' command args =
      some (match g with
        | .error err => .error ("urfave.NewCommand generate error: ".toList ++ err)
        | .ok c => .ok c) := by
    intro fuel' hle
    unfold NewCommand
    rw [generate_mono_le exec fuel fuel' _ g hle hg]
    cases g <;> rfl
  refine ⟨_, hnew fuel (Nat.le_refl _), hnew, ?_⟩
  intro root hr path node hsub
  cases g with
  | error e => cases hr
  | ok c =>
    simp only [Except.ok.injEq] at hr
    subst hr
    obtain ⟨f, hgen, hlen⟩ := sub_generated exec path fuel _ c node hg hsub
    refine ⟨?_, hlen, ?_⟩
    · rcases List.eq_nil_or_concat path with hp | ⟨p', i, hp⟩
      · rw [hp]; exact Nat.zero_le _
      · rw [List.concat_eq_append] at hp
        subst hp
        obtain ⟨parent, hparent, hget⟩ := sub_snoc p' i c node hsub
        obtain ⟨fp, hpgen, hplen⟩ := sub_generated exec p' fuel _ c parent hg hparent
        obtain ⟨n, out, _, hexec, hne⟩ := child_base exec fp parent node i hpgen hget
        have hle : parent.base.length ≤ D := by
          by_contra hgt
          exact hne (hbound parent.base out (by omega) hexec)
        simp only [List.length_cons, List.length_append, List.length_nil] at hplen ⊢
        omega
    · intro i child hget
      obtain ⟨n, _, hn, _, _⟩ := child_base exec f node child i hgen hget
      exact ⟨n, hn⟩

/-- C19, for the program `app` with its sub-command `run`: no path of more than one token
has a sub-command, and `NewCommand` returns with fuel 2. -/
theorem NewCommand_terminates_witness :
    ∃ r, NewCommand appInvoker 2 "app".toList [] = some r := by
  obtain ⟨r, hr, _⟩ := NewCommand_terminates appInvoker 1 "app".toList []
    (by
      intro p out hp hexec
      unfold appInvoker at hexec
      split at hexec
      · rename_i h
        have := congrArg List.length h
        simp only [List.length_append, List.length_cons, List.length_nil] at this
        omega
      · split at hexec
        · have : out = "NAME:\n   run - executes\n".toList := by
            simpa using (congrArg Prod.fst hexec).symm
          rw [this]
          decide
        · simp at hexec)
    2 (by decide)
  exact ⟨r, hr⟩

end CmdDoc
